import Mathlib

/-!
Shallow embedding of the contact-directory program (`goit-pycore-hw-07.py`):
the validated fields (`Name`, `Phone`, `Birthday`), `Record`, `AddressBook`
with its `birthdays` window query, and the persistence codec
(`file_write` / `file_read`).  Strings are modelled as `List Char`
(ASCII-faithful), Python `datetime` dates as a `Date` structure with
Gregorian arithmetic, and raised exceptions as `Except` / `Option` results.
-/

namespace ContactBook

/-- Python strings, modelled as lists of characters. -/
abbrev Str := List Char

/-- ASCII whitespace as recognised by Python `str.strip`. -/
def pyIsSpace (c : Char) : Bool :=
  c = ' ' || c = '\t' || c = '\n' || c = '\r' || c = '\x0b' || c = '\x0c'

/-- Python `str.strip()`: drop leading and trailing whitespace. -/
def pyStrip (s : Str) : Str :=
  ((s.dropWhile pyIsSpace).reverse.dropWhile pyIsSpace).reverse

/-- Python `str.split(sep)` for a one-character separator: every occurrence
splits, empty pieces are kept (`"".split(c) = [""]`). -/
def splitOnChar (c : Char) : Str → List Str
  | [] => [[]]
  | x :: xs =>
    if x = c then
      [] :: splitOnChar c xs
    else
      match splitOnChar c xs with
      | [] => [[x]]
      | h :: t => (x :: h) :: t

/-- `sep.join(parts)` for a one-character separator. -/
def joinWithChar (c : Char) : List Str → Str
  | [] => []
  | [p] => p
  | p :: rest => p ++ c :: joinWithChar c rest

/-! ### Dates (Python `datetime.date`, Gregorian) -/

/-- A calendar date as Python's `datetime.date` holds it. -/
structure Date where
  year : Nat
  month : Nat
  day : Nat
deriving DecidableEq, Repr

/-- Gregorian leap-year rule (as `calendar.isleap` / `datetime` use). -/
def isLeap (y : Nat) : Bool :=
  (y % 4 = 0 && y % 100 ≠ 0) || y % 400 = 0

/-- Number of days in a month of a given year. -/
def daysInMonth (y m : Nat) : Nat :=
  if m = 2 then (if isLeap y then 29 else 28)
  else if m = 4 || m = 6 || m = 9 || m = 11 then 30
  else 31

/-- A date `datetime.date` would accept (year 1..9999). -/
def validDate (d : Date) : Prop :=
  1 ≤ d.year ∧ d.year ≤ 9999 ∧ 1 ≤ d.month ∧ d.month ≤ 12 ∧
    1 ≤ d.day ∧ d.day ≤ daysInMonth d.year d.month

instance (d : Date) : Decidable (validDate d) := by
  unfold validDate; infer_instance

/-- The successor day (`date + timedelta(days=1)`). -/
def nextDay (d : Date) : Date :=
  if d.day < daysInMonth d.year d.month then ⟨d.year, d.month, d.day + 1⟩
  else if d.month < 12 then ⟨d.year, d.month + 1, 1⟩
  else ⟨d.year + 1, 1, 1⟩

/-- `date + timedelta(days=n)`. -/
def addDays (d : Date) : Nat → Date
  | 0 => d
  | n + 1 => nextDay (addDays d n)

/-- Lexicographic comparison of dates, the order `datetime` objects sort by. -/
def dateLeB (a b : Date) : Bool :=
  decide (a.year < b.year ∨ (a.year = b.year ∧
    (a.month < b.month ∨ (a.month = b.month ∧ a.day ≤ b.day))))

/-! ### `datetime.strptime(s, "%d.%m.%Y")`

CPython's `_strptime` matches `%d` with the regex `3[01]|[12]\d|0[1-9]|[1-9]`
(two digits preferred, single digit `1-9` as fallback), `%m` with
`1[0-2]|0[1-9]|[1-9]`, and `%Y` with exactly four digits; afterwards the
whole input must be consumed and the `datetime` constructor checks calendar
validity (year 1..9999, day within the month). -/

/-- Numeric value of an ASCII digit. -/
def charVal (c : Char) : Nat := c.toNat - 48

/-- Parse a day field (`%d`): a two-digit value `01..31`, else one digit `1..9`. -/
def parseDay : Str → Option (Nat × Str)
  | c1 :: c2 :: rest =>
    if c1.isDigit && c2.isDigit && 1 ≤ 10 * charVal c1 + charVal c2
        && 10 * charVal c1 + charVal c2 ≤ 31 then
      some (10 * charVal c1 + charVal c2, rest)
    else if c1.isDigit && 1 ≤ charVal c1 then
      some (charVal c1, c2 :: rest)
    else none
  | [c1] => if c1.isDigit && 1 ≤ charVal c1 then some (charVal c1, []) else none
  | [] => none

/-- Parse a month field (`%m`): a two-digit value `01..12`, else one digit `1..9`. -/
def parseMonth : Str → Option (Nat × Str)
  | c1 :: c2 :: rest =>
    if c1.isDigit && c2.isDigit && 1 ≤ 10 * charVal c1 + charVal c2
        && 10 * charVal c1 + charVal c2 ≤ 12 then
      some (10 * charVal c1 + charVal c2, rest)
    else if c1.isDigit && 1 ≤ charVal c1 then
      some (charVal c1, c2 :: rest)
    else none
  | [c1] => if c1.isDigit && 1 ≤ charVal c1 then some (charVal c1, []) else none
  | [] => none

/-- Parse a year field (`%Y`): exactly four digits. -/
def parseYear4 : Str → Option (Nat × Str)
  | c1 :: c2 :: c3 :: c4 :: rest =>
    if c1.isDigit && c2.isDigit && c3.isDigit && c4.isDigit then
      some (1000 * charVal c1 + 100 * charVal c2 + 10 * charVal c3 + charVal c4, rest)
    else none
  | _ => none

/-- The literal `.` of the format string: consume exactly one dot. -/
def expectDot : Str → Option Str
  | c :: rest => if c = '.' then some rest else none
  | [] => none

/-- `datetime.strptime(s, "%d.%m.%Y")`, as a date (time is midnight and
irrelevant): parse day, dot, month, dot, four-digit year; the whole string
must be consumed and the resulting triple must be a constructible date. -/
def strptimeDMY (s : Str) : Option Date :=
  match parseDay s with
  | none => none
  | some (d, rest1) =>
    match expectDot rest1 with
    | none => none
    | some rest2 =>
      match parseMonth rest2 with
      | none => none
      | some (m, rest3) =>
        match expectDot rest3 with
        | none => none
        | some rest4 =>
          match parseYear4 rest4 with
          | none => none
          | some (y, rest5) =>
            if rest5 = [] && 1 ≤ y && 1 ≤ d && d ≤ daysInMonth y m then
              some ⟨y, m, d⟩
            else none

/-- `date.strftime("%d.%m.%Y")`: two zero-padded digits. -/
def pad2 (n : Nat) : Str := [Char.ofNat (48 + n / 10 % 10), Char.ofNat (48 + n % 10)]

/-- `strftime("%Y")` for the 4-digit years this program produces. -/
def pad4 (n : Nat) : Str :=
  [Char.ofNat (48 + n / 1000 % 10), Char.ofNat (48 + n / 100 % 10),
   Char.ofNat (48 + n / 10 % 10), Char.ofNat (48 + n % 10)]

/-- `d.strftime("%d.%m.%Y")`. -/
def formatDMY (d : Date) : Str :=
  pad2 d.day ++ ('.' :: (pad2 d.month ++ ('.' :: pad4 d.year)))

/-! ### A small regex engine for the two source patterns

`re.match(r"^...$", s)` anchors at the start; the engine computes the set of
possible remainders after matching the pattern body, and `$` accepts a
remainder that is empty or a single final newline (Python `$` semantics). -/

/-- Regular expressions: empty, single-character class, sequence, alternation. -/
inductive RE where
  | eps : RE
  | cls : (Char → Bool) → RE
  | seq : RE → RE → RE
  | alt : RE → RE → RE

/-- All remainders left after matching `r` against a prefix of `s`. -/
def remainders : RE → Str → List Str
  | .eps, s => [s]
  | .cls _, [] => []
  | .cls p, c :: rest => if p c then [rest] else []
  | .seq a b, s => (remainders a s).flatMap (remainders b)
  | .alt a b, s => remainders a s ++ remainders b s

/-- `$` at the end of a pattern: accepts the end of the string or a position
just before a single trailing newline. -/
def dollarAccept (rem : Str) : Bool := rem = [] || rem = ['\n']

/-- `bool(re.match("^" ++ r ++ "$", s))`. -/
def reFullMatch (r : RE) (s : Str) : Bool :=
  (remainders r s).any dollarAccept

/-- Literal character as a regex. -/
def lit (c : Char) : RE := .cls (· = c)

/-- `\d` (on ASCII input). -/
def digitC : RE := .cls Char.isDigit

/-- `r{n}`: n sequenced copies. -/
def reps : Nat → RE → RE
  | 0, _ => .eps
  | n + 1, r => .seq r (reps n r)

/-- The phone pattern body: `\d{10}` (from `^\d{10}$`). -/
def phoneRE : RE := reps 10 digitC

/-- `0[1-9]|[12][0-9]|3[01]` — the day alternatives of the birthday regex. -/
def dayRE : RE :=
  .alt (.seq (lit '0') (.cls fun c => '1' ≤ c && c ≤ '9'))
    (.alt (.seq (.cls fun c => c = '1' || c = '2') digitC)
      (.seq (lit '3') (.cls fun c => c = '0' || c = '1')))

/-- `0[1-9]|1[0-2]` — the month alternatives of the birthday regex. -/
def monthRE : RE :=
  .alt (.seq (lit '0') (.cls fun c => '1' ≤ c && c ≤ '9'))
    (.seq (lit '1') (.cls fun c => c = '0' || c = '1' || c = '2'))

/-- `(19|20)\d{2}` — the year part of the birthday regex. -/
def yearRE : RE :=
  .seq (.alt (.seq (lit '1') (lit '9')) (.seq (lit '2') (lit '0'))) (reps 2 digitC)

/-- The body of `^(0[1-9]|[12][0-9]|3[01])\.(0[1-9]|1[0-2])\.(19|20)\d{2}$`. -/
def birthdayRE : RE :=
  .seq dayRE (.seq (lit '.') (.seq monthRE (.seq (lit '.') yearRE)))

/-! ### Validated fields

Each Python field constructor either stores a value or raises `ValueError`;
we model construction as an `Option` result. -/

/-- `Phone.validate_phone`: `bool(re.match(r"^\d{10}$", value))`. -/
def validate_phone (s : Str) : Bool := reFullMatch phoneRE s

/-- `Phone(value)`: stores the raw string when the regex matches, else raises. -/
def mkPhone (s : Str) : Option Str :=
  if validate_phone s then some s else none

/-- `Birthday.validate_birthday`:
`bool(re.match(r"^(0[1-9]|[12][0-9]|3[01])\.(0[1-9]|1[0-2])\.(19|20)\d{2}$", value))`. -/
def validate_birthday (s : Str) : Bool := reFullMatch birthdayRE s

/-- `Birthday(value)`: raises unless the regex matches; then stores
`datetime.strptime(value, "%d.%m.%Y")`, which itself raises on inputs that
are not a parseable, calendar-valid date (such raises also escape
`__init__`). -/
def mkBirthday (s : Str) : Option Date :=
  if validate_birthday s then strptimeDMY s else none

/-- `Name(value)`: raises when `not value`, i.e. exactly when the string is
empty. -/
def mkName (s : Str) : Option Str :=
  if s = [] then none else some s

/-! ### Record -/

/-- One contact: `Record.name` is `None` when name validation failed at
construction (`self.name = None`), `phones` holds the stored phone strings in
insertion order, `birthday` the stored date if set. -/
structure Record where
  name : Option Str
  phones : List Str
  birthday : Option Date
deriving DecidableEq, Repr

/-- `Record(name)`. -/
def Record.make (n : Str) : Record := ⟨mkName n, [], none⟩

/-- `Record.add_phone`: validates and appends; returns `1` on success, `0`
(list unchanged) on validation failure. -/
def Record.add_phone (r : Record) (p : Str) : Nat × Record :=
  match mkPhone p with
  | some v => (1, { r with phones := r.phones ++ [v] })
  | none => (0, r)

/-- `Record.delete_phone`: removes every stored phone equal to the argument;
always returns `1`. -/
def Record.delete_phone (r : Record) (p : Str) : Nat × Record :=
  (1, { r with phones := r.phones.filter (fun q => q ≠ p) })

/-- Auxiliary for the membership test `any p.value == old_phone` the
`edit_phone` loop performs. -/
def phoneMem (p : Str) (l : List Str) : Bool := l.any (fun q => q = p)

/-- `Record.edit_phone`: if some stored phone equals `old`, run `add_phone
new` (its failure is ignored) then `delete_phone old` and return `1`;
otherwise the raised `PhoneNotFound` error is caught and `0` returned. -/
def Record.edit_phone (r : Record) (old new : Str) : Nat × Record :=
  if phoneMem old r.phones then
    let r1 := (r.add_phone new).2
    let r2 := (r1.delete_phone old).2
    (1, r2)
  else (0, r)

/-- `Record.add_birthday`: returns `0` leaving the record unchanged when a
birthday already exists; otherwise validates, setting it on success. -/
def Record.add_birthday (r : Record) (s : Str) : Nat × Record :=
  match r.birthday with
  | some _ => (0, r)
  | none =>
    match mkBirthday s with
    | some d => (1, { r with birthday := some d })
    | none => (0, r)

/-- `Record.edit_birthday`: overwrites on successful validation; on failure
returns `0` with the old value retained (the assignment never happened). -/
def Record.edit_birthday (r : Record) (s : Str) : Nat × Record :=
  match mkBirthday s with
  | some d => (1, { r with birthday := some d })
  | none => (0, r)

/-- `Record.delete_birthday`. -/
def Record.delete_birthday (r : Record) : Record := { r with birthday := none }

/-! ### AddressBook

`AddressBook.data` is a Python dict keyed by name: insertion order is
preserved, overwriting a present key keeps its position.  We model it as an
association list with dict update semantics. -/

/-- The dict backing an `AddressBook`. -/
abbrev Book := List (Str × Record)

/-- Python dict assignment `data[k] = v`: replace in place if the key is
present, else append. -/
def dictInsert (k : Str) (v : Record) : Book → Book
  | [] => [(k, v)]
  | (k1, v1) :: rest =>
    if k1 = k then (k, v) :: rest else (k1, v1) :: dictInsert k v rest

/-- Python dict lookup `data[k]` / `k in data`. -/
def dictFind (k : Str) : Book → Option Record
  | [] => none
  | (k1, v1) :: rest => if k1 = k then some v1 else dictFind k rest

/-- `AddressBook.add_record`: rejected when the record has no usable name. -/
def add_record (book : Book) (r : Record) : Book :=
  match r.name with
  | none => book
  | some n => dictInsert n r book

/-- Exceptions that can escape an operation. -/
inductive PyErr where
  | typeError
  | attributeError
deriving DecidableEq, Repr

/-- Resolution of the reference date in `AddressBook.birthdays`:
`datetime.strptime(check_day, "%d.%m.%Y")` wrapped in `except ValueError`.
With `check_day = None`, `strptime` raises `TypeError`, which the handler
does not catch; with an unparseable string the `ValueError` is caught and
`today` (the ambient system date, passed here explicitly) is used. -/
def refToday (check_day : Option Str) (sysToday : Date) : Except PyErr Date :=
  match check_day with
  | none => .error .typeError
  | some s =>
    match strptimeDMY s with
    | some d => .ok d
    | none => .ok sysToday

/-- The per-record scan of `AddressBook.birthdays`: for `delta in
range(8)`, the first delta with matching month and day wins (`break`). -/
def firstMatchDelta (today : Date) (b : Date) : Option Nat :=
  (List.range 8).find? fun delta =>
    b.month = (addDays today delta).month && b.day = (addDays today delta).day

/-- One result entry of `AddressBook.birthdays`. -/
structure Entry where
  name : Str
  congratulation_date : Str
deriving DecidableEq, Repr

/-- The loop body for one record: skipped without a birthday; on a window
match the appended entry reads `user.name.value`, which raises
`AttributeError` when the record has no usable name. -/
def matchRecord (today : Date) (r : Record) : Except PyErr (Option Entry) :=
  match r.birthday with
  | none => .ok none
  | some b =>
    match firstMatchDelta today b with
    | none => .ok none
    | some _ =>
      match r.name with
      | none => .error .attributeError
      | some n => .ok (some ⟨n, formatDMY b⟩)

/-- The accumulation loop of `AddressBook.birthdays` over `data.values()`. -/
def collectMatches (today : Date) : List Record → Except PyErr (List Entry)
  | [] => .ok []
  | r :: rest =>
    match matchRecord today r with
    | .error e => .error e
    | .ok none => collectMatches today rest
    | .ok (some entry) =>
      match collectMatches today rest with
      | .error e => .error e
      | .ok l => .ok (entry :: l)

/-- The sort key `datetime.strptime(x["congratulation_date"], "%d.%m.%Y")`,
compared as dates (an entry whose string failed to parse would raise; the
`none` case is ordered first to keep the comparator total). -/
def entryLeB (a b : Entry) : Bool :=
  match strptimeDMY a.congratulation_date, strptimeDMY b.congratulation_date with
  | some da, some db => dateLeB da db
  | none, _ => true
  | some _, none => false

/-- `AddressBook.birthdays(check_day)`: resolve the reference date, scan all
records for a match within today..today+7, and return the matches sorted
ascending by parsed congratulation date. -/
def birthdays (check_day : Option Str) (sysToday : Date) (book : Book) :
    Except PyErr (List Entry) :=
  match refToday check_day sysToday with
  | .error e => .error e
  | .ok today =>
    match collectMatches today (book.map Prod.snd) with
    | .error e => .error e
    | .ok l => .ok (l.mergeSort entryLeB)

/-! ### Persistence codec (`file_write` / `file_read`) -/

/-- The loop of `file_write` over `contacts.values()`: each record becomes
`"{name}, {phone1-...-phoneN}, {birthday}\n"` (or `"{name}, {phones},\n"`
without a birthday).  Reading `record.name.value` on a record whose name
failed validation raises `AttributeError`; the surrounding
`except Exception` then abandons the loop, leaving the lines written so far
as the file content (flushed when the `with` block closes).  The `Bool`
reports whether the write completed.

`lineOf` is the f-string for one record (without the trailing newline). -/
def lineOf (n : Str) (r : Record) : Str :=
  match r.birthday with
  | some d =>
    n ++ (',' :: ' ' :: (joinWithChar '-' r.phones ++ (',' :: ' ' :: formatDMY d)))
  | none => n ++ (',' :: ' ' :: (joinWithChar '-' r.phones ++ [',']))

/-- The write loop itself; each record contributes its line plus the newline
`file.write` appends. -/
def writeLines : List Record → Str × Bool
  | [] => ([], true)
  | r :: rest =>
    match r.name with
    | none => ([], false)
    | some n =>
      let rec1 := writeLines rest
      (lineOf n r ++ '\n' :: rec1.1, rec1.2)

/-- `file_write(contacts)`: the file content produced (and whether the write
ran to completion). -/
def file_write (book : Book) : Str × Bool := writeLines (book.map Prod.snd)

/-- Universal-newline translation performed by text-mode reading:
`"\r\n"` and lone `"\r"` both become `"\n"`. -/
def normNewlines : Str → Str
  | [] => []
  | x :: xs =>
    if x = '\r' then
      match xs with
      | '\n' :: rest => '\n' :: normNewlines rest
      | rest => '\n' :: normNewlines rest
    else x :: normNewlines xs

/-- `for line in file`: the lines of the content (a trailing newline does not
produce an extra empty line).  We model lines without their terminating
newline; `file_read` strips each line anyway. -/
def pyFileLines (content : Str) : List Str :=
  let parts := splitOnChar '\n' (normNewlines content)
  match parts.getLast? with
  | some [] => parts.dropLast
  | _ => parts

/-- The comma parts of one line of the file: split on `,`, strip each part
(the `line.strip()` and the per-part strips of `file_read`). -/
def lineParts (line : Str) : List Str :=
  (splitOnChar ',' (pyStrip line)).map pyStrip

/-- The updates `file_read` applies to one record from the parts after the
name: part 0 (of the rest) is the hyphen-joined phones — split on `-`, strip,
drop empties, feed each through `add_phone` — and part 1 the birthday token,
fed through `add_birthday` when nonempty. -/
def applyPartsToRecord (restParts : List Str) (r : Record) : Record :=
  let phones := ((splitOnChar '-' (restParts.headD [])).map pyStrip).filter (fun p => p ≠ [])
  let r1 := phones.foldl (fun rec p => (rec.add_phone p).2) r
  match restParts[1]? with
  | some b => if b ≠ [] then (r1.add_birthday b).2 else r1
  | none => r1

/-- The body of the `file_read` loop for one line: parse the parts; a name
already seen reuses (and so merges into) its record, otherwise a fresh
`Record(name)` is created; then the phone and birthday parts are applied. -/
def processLine (contacts : Book) (line : Str) : Book :=
  match lineParts line with
  | [] => contacts
  | name :: restParts =>
    let record0 :=
      match dictFind name contacts with
      | some r => r
      | none => Record.make name
    dictInsert name (applyPartsToRecord restParts record0) contacts

/-- The name field of a line (specification-side reading of the parse). -/
def lineName (line : Str) : Str := (lineParts line).headD []

/-- The phone tokens of a line that `add_phone` accepts, in order
(specification-side reading of the parse). -/
def linePhonesParsed (line : Str) : List Str :=
  (((splitOnChar '-' (((lineParts line).tail).headD [])).map pyStrip).filter
    (fun p => p ≠ [])).filter (fun p => validate_phone p)

/-- The birthday a line contributes if its record has none yet
(specification-side reading of the parse). -/
def lineBdayParsed (line : Str) : Option Date :=
  match ((lineParts line).tail)[1]? with
  | some b => if b ≠ [] then mkBirthday b else none
  | none => none

/-- A name that survives the persisted line format: nonempty, strip-stable,
free of commas, newlines and carriage returns. -/
def goodName (n : Str) : Prop :=
  n ≠ [] ∧ pyStrip n = n ∧ ∀ c ∈ n, c ≠ ',' ∧ c ≠ '\n' ∧ c ≠ '\r'

/-- A stored phone in canonical form: exactly ten ASCII digits. -/
def goodPhone (p : Str) : Prop := p.length = 10 ∧ p.all Char.isDigit = true

/-- A stored birthday the codec round-trips: a real calendar date with a
regex-representable year. -/
def goodBirthdate (d : Date) : Prop := validDate d ∧ 1900 ≤ d.year ∧ d.year ≤ 2099

instance (n : Str) : Decidable (goodName n) := by
  unfold goodName; infer_instance

instance (p : Str) : Decidable (goodPhone p) := by
  unfold goodPhone; infer_instance

instance (d : Date) : Decidable (goodBirthdate d) := by
  unfold goodBirthdate; infer_instance

/-- `file_read()` on given file content: fold the per-line processing over
the lines, starting from an empty dict. -/
def file_read (content : Str) : Book :=
  (pyFileLines content).foldl processLine []

/-! ## Helper lemmas: digits, regex remainders, parsing -/

theorem isDigit_digitChar (d : Nat) (h : d < 10) :
    (Char.ofNat (48 + d)).isDigit = true := by
  interval_cases d <;> decide

theorem charVal_digitChar (d : Nat) (h : d < 10) :
    charVal (Char.ofNat (48 + d)) = d := by
  interval_cases d <;> decide

theorem dchar_eq0 (a : Nat) (h : a < 10) :
    decide (Char.ofNat (48 + a) = '0') = decide (a = 0) := by
  interval_cases a <;> decide

theorem dchar_eq1 (a : Nat) (h : a < 10) :
    decide (Char.ofNat (48 + a) = '1') = decide (a = 1) := by
  interval_cases a <;> decide

theorem dchar_eq2 (a : Nat) (h : a < 10) :
    decide (Char.ofNat (48 + a) = '2') = decide (a = 2) := by
  interval_cases a <;> decide

theorem dchar_eq3 (a : Nat) (h : a < 10) :
    decide (Char.ofNat (48 + a) = '3') = decide (a = 3) := by
  interval_cases a <;> decide

theorem dchar_range19 (a : Nat) (h : a < 10) :
    (decide ('1' ≤ Char.ofNat (48 + a)) && decide (Char.ofNat (48 + a) ≤ '9')) =
      decide (1 ≤ a) := by
  interval_cases a <;> decide

theorem dchar_le1 (a : Nat) (h : a < 10) :
    (decide (Char.ofNat (48 + a) = '0') || decide (Char.ofNat (48 + a) = '1')) =
      decide (a ≤ 1) := by
  interval_cases a <;> decide

theorem dchar_le2 (a : Nat) (h : a < 10) :
    (decide (Char.ofNat (48 + a) = '0') || decide (Char.ofNat (48 + a) = '1')
        || decide (Char.ofNat (48 + a) = '2')) = decide (a ≤ 2) := by
  interval_cases a <;> decide

theorem remainders_reps_digitC (n : Nat) : ∀ l : Str,
    remainders (reps n digitC) l =
      if n ≤ l.length ∧ (l.take n).all Char.isDigit then [l.drop n] else [] := by
  induction n with
  | zero => intro l; simp [reps, remainders]
  | succ n ih =>
    intro l
    cases l with
    | nil => simp [reps, remainders, digitC]
    | cons c rest =>
      simp only [reps, remainders]
      by_cases hc : c.isDigit
      · have hrest := ih rest
        simp only [digitC] at hrest ⊢
        simp [hc, hrest, Nat.succ_le_succ_iff]
      · simp only [digitC]
        simp [hc, Nat.succ_le_succ_iff]

theorem digitChar_is0 (a : Nat) (h : a < 10) : Char.ofNat (48 + a) = '0' ↔ a = 0 := by
  interval_cases a <;> decide

theorem digitChar_is1 (a : Nat) (h : a < 10) : Char.ofNat (48 + a) = '1' ↔ a = 1 := by
  interval_cases a <;> decide

theorem digitChar_is2 (a : Nat) (h : a < 10) : Char.ofNat (48 + a) = '2' ↔ a = 2 := by
  interval_cases a <;> decide

theorem digitChar_is3 (a : Nat) (h : a < 10) : Char.ofNat (48 + a) = '3' ↔ a = 3 := by
  interval_cases a <;> decide

theorem digitChar_ge1le9 (a : Nat) (h : a < 10) :
    ('1' ≤ Char.ofNat (48 + a) ∧ Char.ofNat (48 + a) ≤ '9') ↔ 1 ≤ a := by
  interval_cases a <;> decide

theorem remainders_dayRE_pad2 (n : Nat) (h1 : 1 ≤ n) (h2 : n ≤ 31) (rest : Str) :
    remainders dayRE (pad2 n ++ rest) = [rest] := by
  have ha : n / 10 % 10 = n / 10 := by omega
  have hb : n % 10 < 10 := by omega
  have ha10 : n / 10 < 10 := by omega
  simp only [pad2, ha, List.cons_append, List.nil_append]
  simp only [dayRE, remainders, lit, digitC]
  simp only [digitChar_is0 _ ha10, digitChar_is1 _ ha10, digitChar_is2 _ ha10,
    digitChar_is3 _ ha10, Bool.and_eq_true, decide_eq_true_eq]
  have hd : n / 10 = 0 ∨ n / 10 = 1 ∨ n / 10 = 2 ∨ n / 10 = 3 := by omega
  rcases hd with hd | hd | hd | hd
  · have hx : 1 ≤ n % 10 := by omega
    simp [hd, hx, remainders, digitChar_ge1le9 _ hb]
  · simp [hd, remainders, isDigit_digitChar _ hb]
  · simp [hd, remainders, isDigit_digitChar _ hb]
  · have hx : n % 10 ≤ 1 := by omega
    simp [hd, hx, remainders, digitChar_is0 _ hb, digitChar_is1 _ hb]
    omega

theorem remainders_monthRE_pad2 (n : Nat) (h1 : 1 ≤ n) (h2 : n ≤ 12) (rest : Str) :
    remainders monthRE (pad2 n ++ rest) = [rest] := by
  have ha : n / 10 % 10 = n / 10 := by omega
  have hb : n % 10 < 10 := by omega
  have ha10 : n / 10 < 10 := by omega
  simp only [pad2, ha, List.cons_append, List.nil_append]
  simp only [monthRE, remainders, lit, digitC]
  simp only [digitChar_is0 _ ha10, digitChar_is1 _ ha10, Bool.and_eq_true, decide_eq_true_eq]
  have hd : n / 10 = 0 ∨ n / 10 = 1 := by omega
  rcases hd with hd | hd
  · have hx : 1 ≤ n % 10 := by omega
    simp [hd, hx, remainders, digitChar_ge1le9 _ hb]
  · have hx : n % 10 ≤ 2 := by omega
    simp [hd, hx, remainders, digitChar_is0 _ hb, digitChar_is1 _ hb, digitChar_is2 _ hb]
    omega

theorem remainders_yearRE_pad4 (y : Nat) (h1 : 1900 ≤ y) (h2 : y ≤ 2099) (rest : Str) :
    remainders yearRE (pad4 y ++ rest) = [rest] := by
  have hq : y / 1000 % 10 = y / 1000 := by omega
  have hc3 : y / 10 % 10 < 10 := by omega
  have hc4 : y % 10 < 10 := by omega
  have hy : (y ≤ 1999 ∧ y / 1000 = 1 ∧ y / 100 % 10 = 9) ∨
      (2000 ≤ y ∧ y / 1000 = 2 ∧ y / 100 % 10 = 0) := by omega
  rcases hy with ⟨hy1, e1, e2⟩ | ⟨hy1, e1, e2⟩ <;>
    simp [pad4, hq, e1, e2, yearRE, remainders, lit, digitC, reps,
      isDigit_digitChar _ hc3, isDigit_digitChar _ hc4]

theorem parseDay_pad2 (n : Nat) (h1 : 1 ≤ n) (h2 : n ≤ 31) (rest : Str) :
    parseDay (pad2 n ++ rest) = some (n, rest) := by
  have ha : n / 10 % 10 = n / 10 := by omega
  have hb : n % 10 < 10 := by omega
  have ha10 : n / 10 < 10 := by omega
  have hv : 10 * (n / 10) + n % 10 = n := by omega
  simp only [pad2, ha, List.cons_append, List.nil_append, parseDay]
  rw [charVal_digitChar _ ha10, charVal_digitChar _ hb]
  rw [isDigit_digitChar _ ha10, isDigit_digitChar _ hb]
  rw [hv]
  simp [h1, h2]

theorem parseMonth_pad2 (n : Nat) (h1 : 1 ≤ n) (h2 : n ≤ 12) (rest : Str) :
    parseMonth (pad2 n ++ rest) = some (n, rest) := by
  have ha : n / 10 % 10 = n / 10 := by omega
  have hb : n % 10 < 10 := by omega
  have ha10 : n / 10 < 10 := by omega
  have hv : 10 * (n / 10) + n % 10 = n := by omega
  simp only [pad2, ha, List.cons_append, List.nil_append, parseMonth]
  rw [charVal_digitChar _ ha10, charVal_digitChar _ hb]
  rw [isDigit_digitChar _ ha10, isDigit_digitChar _ hb]
  rw [hv]
  simp [h1, h2]

theorem parseYear4_pad4 (y : Nat) (h : y ≤ 9999) (rest : Str) :
    parseYear4 (pad4 y ++ rest) = some (y, rest) := by
  have hq : y / 1000 % 10 = y / 1000 := by omega
  have hc1 : y / 1000 < 10 := by omega
  have hc2 : y / 100 % 10 < 10 := by omega
  have hc3 : y / 10 % 10 < 10 := by omega
  have hc4 : y % 10 < 10 := by omega
  have hv : 1000 * (y / 1000) + 100 * (y / 100 % 10) + 10 * (y / 10 % 10) + y % 10 = y := by
    omega
  simp only [pad4, hq, List.cons_append, List.nil_append, parseYear4]
  rw [charVal_digitChar _ hc1, charVal_digitChar _ hc2, charVal_digitChar _ hc3,
    charVal_digitChar _ hc4]
  rw [isDigit_digitChar _ hc1, isDigit_digitChar _ hc2, isDigit_digitChar _ hc3,
    isDigit_digitChar _ hc4]
  rw [hv]
  simp

theorem remainders_seq (a b : RE) (s : Str) :
    remainders (RE.seq a b) s = (remainders a s).flatMap (remainders b) := rfl

theorem remainders_lit_cons (c : Char) (rest : Str) :
    remainders (lit c) (c :: rest) = [rest] := by
  simp [lit, remainders]

theorem expectDot_cons (rest : Str) : expectDot ('.' :: rest) = some rest := by
  simp [expectDot]

theorem strptimeDMY_formatDMY (d : Date) (hd1 : 1 ≤ d.day) (hd2 : d.day ≤ 31)
    (hm1 : 1 ≤ d.month) (hm2 : d.month ≤ 12) (hy1 : 1 ≤ d.year) (hy2 : d.year ≤ 9999) :
    strptimeDMY (formatDMY d) =
      if d.day ≤ daysInMonth d.year d.month then some d else none := by
  unfold formatDMY strptimeDMY
  rw [parseDay_pad2 _ hd1 hd2]
  dsimp only
  rw [expectDot_cons]
  dsimp only
  rw [parseMonth_pad2 _ hm1 hm2]
  dsimp only
  rw [expectDot_cons]
  dsimp only
  rw [show (pad4 d.year : Str) = pad4 d.year ++ [] from (List.append_nil _).symm]
  rw [parseYear4_pad4 _ hy2]
  dsimp only
  simp [hy1, hd1]

theorem validate_birthday_formatDMY (d : Date) (hd1 : 1 ≤ d.day) (hd2 : d.day ≤ 31)
    (hm1 : 1 ≤ d.month) (hm2 : d.month ≤ 12) (hy1 : 1900 ≤ d.year) (hy2 : d.year ≤ 2099) :
    validate_birthday (formatDMY d) = true := by
  unfold validate_birthday reFullMatch formatDMY birthdayRE
  rw [remainders_seq, remainders_dayRE_pad2 _ hd1 hd2]
  simp only [List.flatMap_cons, List.flatMap_nil, List.append_nil]
  rw [remainders_seq, remainders_lit_cons]
  simp only [List.flatMap_cons, List.flatMap_nil, List.append_nil]
  rw [remainders_seq, remainders_monthRE_pad2 _ hm1 hm2]
  simp only [List.flatMap_cons, List.flatMap_nil, List.append_nil]
  rw [remainders_seq, remainders_lit_cons]
  simp only [List.flatMap_cons, List.flatMap_nil, List.append_nil]
  rw [show (pad4 d.year : Str) = pad4 d.year ++ [] from (List.append_nil _).symm]
  rw [remainders_yearRE_pad4 _ hy1 hy2]
  rfl

/-! ## Theorems -/

/-- C7 (counterexample): `Name` construction succeeds on the whitespace-only
string `" "` — the code only rejects falsy (empty) strings, so the claim that
whitespace-only inputs fail is refuted. -/
theorem name_whitespace_only_succeeds :
    ([' '] : Str).all pyIsSpace = true ∧ mkName [' '] = some [' '] := by
  decide

/-- C7 (amended): `Name` construction fails exactly on the empty string;
every nonempty string, including whitespace-only ones, succeeds. -/
theorem name_fails_iff_empty (s : Str) : mkName s = none ↔ s = [] := by
  unfold mkName
  split <;> simp_all

/-- C5: on a record holding at least one phone equal to `old`, `edit_phone`
with an invalid `new` removes every entry equal to `old` and adds nothing:
the net effect is phone loss, not a rollback. -/
theorem edit_phone_invalid_new_loses_phone (r : Record) (old new : Str)
    (hold : phoneMem old r.phones = true) (hnew : mkPhone new = none) :
    r.edit_phone old new =
      (1, { r with phones := r.phones.filter (fun q => q ≠ old) }) := by
  unfold Record.edit_phone
  rw [if_pos hold]
  simp [Record.add_phone, hnew, Record.delete_phone]

/-- C5 (witness): concrete instance — a record holding `1112223333`, edited
with the invalid replacement `abc`, ends up with no phones at all. -/
theorem edit_phone_invalid_new_loses_phone_witness :
    Record.edit_phone ⟨some ['A'], [['1', '1', '1', '2', '2', '2', '3', '3', '3', '3']], none⟩
        ['1', '1', '1', '2', '2', '2', '3', '3', '3', '3'] ['a', 'b', 'c'] =
      (1, ⟨some ['A'], [], none⟩) := by
  have h := edit_phone_invalid_new_loses_phone
    ⟨some ['A'], [['1', '1', '1', '2', '2', '2', '3', '3', '3', '3']], none⟩
    ['1', '1', '1', '2', '2', '2', '3', '3', '3', '3'] ['a', 'b', 'c']
    (by decide) (by decide)
  rw [h]
  decide

/-- C8: `add_birthday` on a record that already has a birthday returns the
failure outcome `0` and leaves the record (hence the stored birthday value)
unchanged. -/
theorem add_birthday_when_set_fails (r : Record) (d : Date) (s : Str)
    (h : r.birthday = some d) : r.add_birthday s = (0, r) := by
  unfold Record.add_birthday
  rw [h]

/-- C8 (witness): a second `add_birthday` on a concrete record keeps the
first value `03.01.1990`. -/
theorem add_birthday_when_set_fails_witness :
    Record.add_birthday ⟨some ['A'], [], some ⟨1990, 1, 3⟩⟩
        ['0', '5', '.', '0', '5', '.', '1', '9', '9', '5'] =
      (0, ⟨some ['A'], [], some ⟨1990, 1, 3⟩⟩) :=
  add_birthday_when_set_fails ⟨some ['A'], [], some ⟨1990, 1, 3⟩⟩ ⟨1990, 1, 3⟩
    ['0', '5', '.', '0', '5', '.', '1', '9', '9', '5'] rfl

/-- C2: when the reference-date input is absent (`check_day = None`),
`birthdays` does not fall back to today: `datetime.strptime(None, ...)`
raises `TypeError`, which the `except ValueError` handler does not catch, so
the fault propagates out of the call — here shown on a book with one
birthday-bearing record. -/
theorem birthdays_absent_input_raises :
    birthdays none ⟨2024, 1, 1⟩ [(['A'], ⟨some ['A'], [], some ⟨1990, 1, 3⟩⟩)] =
      .error .typeError := rfl

/-- C1 (counterexample): `31.02.2024` matches the birthday regex, yet
`Birthday` construction fails — `datetime.strptime` checks calendar validity
and its `ValueError` escapes `__init__`, so validation is not regex-only. -/
theorem birthday_regex_valid_but_construction_fails :
    validate_birthday
        ['3', '1', '.', '0', '2', '.', '2', '0', '2', '4'] = true ∧
      mkBirthday ['3', '1', '.', '0', '2', '.', '2', '0', '2', '4'] = none := by
  decide

/-- C6 (counterexample): `Phone` construction succeeds on
`"0123456789\n"` — eleven characters, one of them not a digit — because
Python's `$` also matches just before a single trailing newline; the claim
that construction fails for every string of length ≠ 10 or containing a
non-digit is refuted. -/
theorem phone_trailing_newline_succeeds :
    (mkPhone ['0', '1', '2', '3', '4', '5', '6', '7', '8', '9', '\n']).isSome = true ∧
      (['0', '1', '2', '3', '4', '5', '6', '7', '8', '9', '\n'] : Str).length ≠ 10 ∧
      (['0', '1', '2', '3', '4', '5', '6', '7', '8', '9', '\n'] : Str).all Char.isDigit = false := by
  decide

/-- C1 (amended): for a zero-padded `DD.MM.YYYY` string with day 01–31,
month 01–12 and year 1900–2099 (the ranges the regex admits), `Birthday`
construction succeeds if and only if the combination is calendrically valid:
`strptime` raises on day-out-of-month combinations, so validation is not
regex-only. -/
theorem birthday_format_construction (d : Date) (hd1 : 1 ≤ d.day) (hd2 : d.day ≤ 31)
    (hm1 : 1 ≤ d.month) (hm2 : d.month ≤ 12) (hy1 : 1900 ≤ d.year) (hy2 : d.year ≤ 2099) :
    mkBirthday (formatDMY d) =
      if d.day ≤ daysInMonth d.year d.month then some d else none := by
  unfold mkBirthday
  rw [validate_birthday_formatDMY d hd1 hd2 hm1 hm2 hy1 hy2]
  rw [strptimeDMY_formatDMY d hd1 hd2 hm1 hm2 (by omega) (by omega)]
  simp

/-- C1 (witness): the leap day `29.02.2024` is calendrically valid, so its
construction succeeds with the parsed date. -/
theorem birthday_format_construction_witness :
    mkBirthday (formatDMY ⟨2024, 2, 29⟩) = some ⟨2024, 2, 29⟩ := by
  have h := birthday_format_construction ⟨2024, 2, 29⟩ (by decide) (by decide) (by decide)
    (by decide) (by decide) (by decide)
  rw [h]
  decide

/-- C6 (amended): on ASCII input, `Phone` construction succeeds exactly for
ten decimal digits optionally followed by one trailing newline (Python `$`
admits the newline); every other ASCII string fails. -/
theorem phone_construction_iff (s : Str) (_hascii : ∀ c ∈ s, c.toNat < 128) :
    (mkPhone s).isSome = true ↔
      (s.length = 10 ∧ s.all Char.isDigit = true) ∨
        (∃ t : Str, s = t ++ ['\n'] ∧ t.length = 10 ∧ t.all Char.isDigit = true) := by
  have hv : (mkPhone s).isSome = validate_phone s := by
    unfold mkPhone; split <;> simp_all
  rw [hv]
  unfold validate_phone reFullMatch phoneRE
  rw [remainders_reps_digitC]
  split
  case isTrue h =>
    simp only [List.any_cons, List.any_nil, Bool.or_false, dollarAccept]
    constructor
    · intro hdrop
      rcases Bool.or_eq_true _ _ |>.mp hdrop with hd | hd
      · left
        have hnil : s.drop 10 = [] := by simpa using hd
        have hlen : s.length = 10 := by
          have := List.length_drop 10 s
          rw [hnil] at this
          simp at this
          omega
        refine ⟨hlen, ?_⟩
        have : s.take 10 = s := List.take_of_length_le (by omega)
        rw [this] at h
        exact h.2
      · right
        have hdrop2 : s.drop 10 = ['\n'] := by simpa using hd
        refine ⟨s.take 10, ?_, ?_, ?_⟩
        · rw [← hdrop2]
          exact (List.take_append_drop 10 s).symm
        · have := List.length_drop 10 s
          rw [hdrop2] at this
          simp at this
          have : s.length = 11 := by omega
          simp [List.length_take, this]
        · exact h.2
    · intro hr
      rcases hr with ⟨hlen, hdig⟩ | ⟨t, hs, hlen, hdig⟩
      · have : s.drop 10 = [] := by
          rw [List.drop_eq_nil_iff]
          omega
        simp [this]
      · have : s.drop 10 = ['\n'] := by
          rw [hs, ← hlen, List.drop_left]
        simp [this]
  case isFalse h =>
    simp only [List.any_nil]
    constructor
    · intro hfalse
      exact absurd hfalse (by simp)
    · intro hr
      exfalso
      apply h
      rcases hr with ⟨hlen, hdig⟩ | ⟨t, hs, hlen, hdig⟩
      · constructor
        · omega
        · rw [List.take_of_length_le (by omega)]
          exact hdig
      · constructor
        · rw [hs]
          simp
          omega
        · rw [hs, ← hlen, List.take_left]
          exact hdig

/-- C6 (amended, witness): the eleven-character ASCII string
`"0123456789\n"` satisfies the right-hand side and indeed constructs. -/
theorem phone_construction_iff_witness :
    (∀ c ∈ (['0', '1', '2', '3', '4', '5', '6', '7', '8', '9', '\n'] : Str), c.toNat < 128) ∧
      ((mkPhone ['0', '1', '2', '3', '4', '5', '6', '7', '8', '9', '\n']).isSome = true ↔
        ((['0', '1', '2', '3', '4', '5', '6', '7', '8', '9', '\n'] : Str).length = 10 ∧
            (['0', '1', '2', '3', '4', '5', '6', '7', '8', '9', '\n'] : Str).all Char.isDigit = true) ∨
          (∃ t : Str, (['0', '1', '2', '3', '4', '5', '6', '7', '8', '9', '\n'] : Str) = t ++ ['\n'] ∧
            t.length = 10 ∧ t.all Char.isDigit = true)) :=
  ⟨by decide, phone_construction_iff _ (by decide)⟩

/-- C4 (counterexample): a directory whose single record has the valid,
comma-free name `"A "` (trailing space) and one valid phone does not
round-trip: reading the written file back trims the name to `"A"`, so the
result differs from the original directory. -/
theorem file_round_trip_counterexample :
    mkName ['A', ' '] = some ['A', ' '] ∧
      (',' ∉ (['A', ' '] : Str)) ∧
      validate_phone ['0', '1', '2', '3', '4', '5', '6', '7', '8', '9'] = true ∧
      file_read (file_write [(['A', ' '],
          ⟨some ['A', ' '], [['0', '1', '2', '3', '4', '5', '6', '7', '8', '9']], none⟩)]).1 =
        [(['A'], ⟨some ['A'], [['0', '1', '2', '3', '4', '5', '6', '7', '8', '9']], none⟩)] ∧
      [(['A'], (⟨some ['A'], [['0', '1', '2', '3', '4', '5', '6', '7', '8', '9']], none⟩ : Record))] ≠
        [(['A', ' '], ⟨some ['A', ' '], [['0', '1', '2', '3', '4', '5', '6', '7', '8', '9']], none⟩)] := by
  decide

theorem dateLeB_trans (a b c : Date) (h1 : dateLeB a b = true) (h2 : dateLeB b c = true) :
    dateLeB a c = true := by
  simp only [dateLeB, decide_eq_true_eq] at h1 h2 ⊢
  omega

theorem dateLeB_total (a b : Date) : dateLeB a b || dateLeB b a := by
  simp only [dateLeB, Bool.or_eq_true, decide_eq_true_eq]
  omega

theorem entryLeB_trans (a b c : Entry) (h1 : entryLeB a b = true) (h2 : entryLeB b c = true) :
    entryLeB a c = true := by
  unfold entryLeB at h1 h2 ⊢
  cases ha : strptimeDMY a.congratulation_date <;>
    cases hb : strptimeDMY b.congratulation_date <;>
      cases hc : strptimeDMY c.congratulation_date <;>
        simp_all
  exact dateLeB_trans _ _ _ h1 h2

theorem entryLeB_total (a b : Entry) : entryLeB a b || entryLeB b a := by
  unfold entryLeB
  cases ha : strptimeDMY a.congratulation_date <;>
    cases hb : strptimeDMY b.congratulation_date <;> simp_all
  have := dateLeB_total
  simp only [Bool.or_eq_true] at this
  exact this _ _

theorem birthdays_ok_elim (ck : Option Str) (sysT : Date) (book : Book) (l : List Entry)
    (hl : birthdays ck sysT book = Except.ok l) :
    ∃ today core, refToday ck sysT = Except.ok today ∧
      collectMatches today (book.map Prod.snd) = Except.ok core ∧
      l = core.mergeSort entryLeB := by
  unfold birthdays at hl
  cases hT : refToday ck sysT with
  | error e => rw [hT] at hl; exact absurd hl (by simp)
  | ok today =>
    rw [hT] at hl
    dsimp only at hl
    cases hc : collectMatches today (book.map Prod.snd) with
    | error e => rw [hc] at hl; exact absurd hl (by simp)
    | ok core =>
      rw [hc] at hl
      simp at hl
      exact ⟨today, core, rfl, hc, hl.symm⟩

/-- C9: every successful `birthdays` result is sorted ascending by the
reported congratulation-date string parsed as `DD.MM.YYYY` — the literal
sort key, using each birthday's own stored year. -/
theorem birthdays_output_sorted (ck : Option Str) (sysT : Date) (book : Book)
    (l : List Entry) (hl : birthdays ck sysT book = Except.ok l) :
    l.Pairwise (fun a b => entryLeB a b = true) := by
  obtain ⟨today, core, hT, hc, hmerge⟩ := birthdays_ok_elim ck sysT book l hl
  rw [hmerge]
  exact List.sorted_mergeSort entryLeB_trans entryLeB_total core

theorem collect_countP_zero (today : Date) (k : Str) : ∀ (book : Book) (core : List Entry),
    (∀ p ∈ book, p.2.name = some p.1) →
    k ∉ book.map Prod.fst →
    collectMatches today (book.map Prod.snd) = Except.ok core →
    core.countP (fun e => decide (e.name = k)) = 0 := by
  intro book
  induction book with
  | nil =>
    intro core _ _ hc
    simp [collectMatches] at hc
    simp [hc]
  | cons p rest ih =>
    intro core hco hk hc
    have hname : p.2.name = some p.1 := hco p (by simp)
    rw [List.map_cons] at hk
    have hk1 : p.1 ≠ k := fun h => hk (h ▸ List.mem_cons_self _ _)
    have hkrest : k ∉ rest.map Prod.fst := fun h => hk (List.mem_cons_of_mem _ h)
    have hcorest : ∀ q ∈ rest, q.2.name = some q.1 := fun q hq => hco q (by simp [hq])
    simp only [List.map_cons] at hc
    rw [show collectMatches today (p.2 :: rest.map Prod.snd) =
        (match matchRecord today p.2 with
         | .error e => .error e
         | .ok none => collectMatches today (rest.map Prod.snd)
         | .ok (some entry) =>
           match collectMatches today (rest.map Prod.snd) with
           | .error e => .error e
           | .ok l => .ok (entry :: l)) from rfl] at hc
    cases hb : p.2.birthday with
    | none =>
      rw [show matchRecord today p.2 = .ok none by simp [matchRecord, hb]] at hc
      exact ih core hcorest hkrest hc
    | some b =>
      cases hf : firstMatchDelta today b with
      | none =>
        rw [show matchRecord today p.2 = .ok none by simp [matchRecord, hb, hf]] at hc
        exact ih core hcorest hkrest hc
      | some d0 =>
        rw [show matchRecord today p.2 = .ok (some ⟨p.1, formatDMY b⟩) by
          simp [matchRecord, hb, hf, hname]] at hc
        cases hr : collectMatches today (rest.map Prod.snd) with
        | error e => rw [hr] at hc; exact absurd hc (by simp)
        | ok core2 =>
          rw [hr] at hc
          simp only [Except.ok.injEq] at hc
          rw [← hc]
          rw [List.countP_cons]
          have := ih core2 hcorest hkrest hr
          simp [this, hk1]

theorem collect_countP_mem (today : Date) (k : Str) (r : Record) :
    ∀ (book : Book) (core : List Entry),
    (∀ p ∈ book, p.2.name = some p.1) →
    (book.map Prod.fst).Nodup →
    (k, r) ∈ book →
    collectMatches today (book.map Prod.snd) = Except.ok core →
    (core.countP (fun e => decide (e.name = k)) =
      (match r.birthday with
       | none => 0
       | some b => if (firstMatchDelta today b).isSome then 1 else 0)) ∧
    (∀ e ∈ core, e.name = k → ∃ b, r.birthday = some b ∧ e.congratulation_date = formatDMY b) := by
  intro book
  induction book with
  | nil =>
    intro core _ _ hmem _
    exact absurd hmem (by simp)
  | cons p rest ih =>
    intro core hco hnd hmem hc
    have hname : p.2.name = some p.1 := hco p (by simp)
    have hcorest : ∀ q ∈ rest, q.2.name = some q.1 := fun q hq => hco q (by simp [hq])
    rw [List.map_cons] at hnd
    have hndrest : (rest.map Prod.fst).Nodup := hnd.of_cons
    have hhead : p.1 ∉ rest.map Prod.fst := (List.nodup_cons.mp hnd).1
    simp only [List.map_cons] at hc
    rw [show collectMatches today (p.2 :: rest.map Prod.snd) =
        (match matchRecord today p.2 with
         | .error e => .error e
         | .ok none => collectMatches today (rest.map Prod.snd)
         | .ok (some entry) =>
           match collectMatches today (rest.map Prod.snd) with
           | .error e => .error e
           | .ok l => .ok (entry :: l)) from rfl] at hc
    rcases List.mem_cons.mp hmem with heq | hrest
    · -- (k, r) is the head pair
      have hk : p.1 = k := by rw [← heq]
      have hr : p.2 = r := by rw [← heq]
      have hkrest : k ∉ rest.map Prod.fst := hk ▸ hhead
      cases hb : r.birthday with
      | none =>
        rw [show matchRecord today p.2 = .ok none by simp [matchRecord, hr, hb]] at hc
        constructor
        · rw [collect_countP_zero today k rest core hcorest hkrest hc]
        · intro e he hek
          exact absurd (collect_countP_zero today k rest core hcorest hkrest hc)
            (by
              have : 0 < core.countP (fun e => decide (e.name = k)) := by
                apply List.countP_pos_iff.mpr
                exact ⟨e, he, by simp [hek]⟩
              omega)
      | some b =>
        cases hf : firstMatchDelta today b with
        | none =>
          rw [show matchRecord today p.2 = .ok none by simp [matchRecord, hr, hb, hf]] at hc
          constructor
          · rw [collect_countP_zero today k rest core hcorest hkrest hc]
            simp [hf]
          · intro e he hek
            exact absurd (collect_countP_zero today k rest core hcorest hkrest hc)
              (by
                have : 0 < core.countP (fun e => decide (e.name = k)) := by
                  apply List.countP_pos_iff.mpr
                  exact ⟨e, he, by simp [hek]⟩
                omega)
        | some d0 =>
          have hnamer : r.name = some p.1 := hr ▸ hname
          rw [show matchRecord today p.2 = .ok (some ⟨p.1, formatDMY b⟩) by
            simp [matchRecord, hr, hb, hf, hnamer]] at hc
          cases hcr : collectMatches today (rest.map Prod.snd) with
          | error e => rw [hcr] at hc; exact absurd hc (by simp)
          | ok core2 =>
            rw [hcr] at hc
            simp only [Except.ok.injEq] at hc
            have hz := collect_countP_zero today k rest core2 hcorest hkrest hcr
            constructor
            · rw [← hc, List.countP_cons, hz]
              simp [hk, hf]
            · intro e he hek
              rw [← hc] at he
              rcases List.mem_cons.mp he with he1 | he2
              · exact ⟨b, by simp [hb], by rw [he1]⟩
              · exact absurd hz
                  (by
                    have : 0 < core2.countP (fun e => decide (e.name = k)) := by
                      apply List.countP_pos_iff.mpr
                      exact ⟨e, he2, by simp [hek]⟩
                    omega)
    · -- (k, r) is in the tail
      have hk1 : p.1 ≠ k := by
        intro h
        exact hhead (h ▸ (List.mem_map.mpr ⟨(k, r), hrest, rfl⟩))
      cases hb : p.2.birthday with
      | none =>
        rw [show matchRecord today p.2 = .ok none by simp [matchRecord, hb]] at hc
        exact ih core hcorest hndrest hrest hc
      | some b =>
        cases hf : firstMatchDelta today b with
        | none =>
          rw [show matchRecord today p.2 = .ok none by simp [matchRecord, hb, hf]] at hc
          exact ih core hcorest hndrest hrest hc
        | some d0 =>
          rw [show matchRecord today p.2 = .ok (some ⟨p.1, formatDMY b⟩) by
            simp [matchRecord, hb, hf, hname]] at hc
          cases hcr : collectMatches today (rest.map Prod.snd) with
          | error e => rw [hcr] at hc; exact absurd hc (by simp)
          | ok core2 =>
            rw [hcr] at hc
            simp only [Except.ok.injEq] at hc
            obtain ⟨ihc, ihe⟩ := ih core2 hcorest hndrest hrest hcr
            constructor
            · rw [← hc, List.countP_cons, ihc]
              simp [hk1]
            · intro e he hek
              rw [← hc] at he
              rcases List.mem_cons.mp he with he1 | he2
              · exact absurd hek (by rw [he1]; simpa using hk1)
              · exact ihe e he2 hek

theorem firstMatchDelta_isSome_iff (today b : Date) :
    (firstMatchDelta today b).isSome = true ↔
      ∃ delta ≤ 7, b.month = (addDays today delta).month ∧
        b.day = (addDays today delta).day := by
  unfold firstMatchDelta
  rw [List.find?_isSome]
  constructor
  · rintro ⟨x, hx, hp⟩
    simp only [List.mem_range] at hx
    simp only [Bool.and_eq_true, decide_eq_true_eq] at hp
    exact ⟨x, by omega, hp.1, hp.2⟩
  · rintro ⟨delta, hd, h1, h2⟩
    refine ⟨delta, ?_, ?_⟩
    · simp only [List.mem_range]
      omega
    · simp [h1, h2]

/-- C3: for any record of a well-formed book (keys distinct, each record's
name equal to its key), the `birthdays` output contains an entry for that
record exactly once when some delta in 0..7 makes referenceDate + delta
match the stored birthday's month and day (the `firstMatchDelta` loop), and
not at all otherwise; a record without a birthday contributes nothing; every
entry for the record reports the stored birthday's own day/month/year. -/
theorem birthdays_window (ck : Option Str) (sysT today : Date) (book : Book)
    (l : List Entry) (k : Str) (r : Record)
    (hT : refToday ck sysT = Except.ok today)
    (hl : birthdays ck sysT book = Except.ok l)
    (hco : ∀ p ∈ book, p.2.name = some p.1)
    (hnd : (book.map Prod.fst).Nodup)
    (hmem : (k, r) ∈ book) :
    (r.birthday = none → l.countP (fun e => decide (e.name = k)) = 0) ∧
    (∀ b, r.birthday = some b →
      (l.countP (fun e => decide (e.name = k)) =
        if (firstMatchDelta today b).isSome = true then 1 else 0) ∧
      ((firstMatchDelta today b).isSome = true ↔
        ∃ delta ≤ 7, b.month = (addDays today delta).month ∧
          b.day = (addDays today delta).day) ∧
      (∀ e ∈ l, e.name = k → e.congratulation_date = formatDMY b)) := by
  obtain ⟨today2, core, hT2, hcol, hmerge⟩ := birthdays_ok_elim ck sysT book l hl
  rw [hT] at hT2
  have htoday : today2 = today := by
    cases hT2
    rfl
  subst htoday
  obtain ⟨hcount, hentry⟩ := collect_countP_mem today2 k r book core hco hnd hmem hcol
  have hperm : l.countP (fun e => decide (e.name = k)) =
      core.countP (fun e => decide (e.name = k)) := by
    rw [hmerge]
    exact (List.mergeSort_perm core entryLeB).countP_eq _
  constructor
  · intro hb
    rw [hperm, hcount]
    simp [hb]
  · intro b hb
    refine ⟨?_, firstMatchDelta_isSome_iff today2 b, ?_⟩
    · rw [hperm, hcount]
      simp only [hb]
    · intro e hel hek
      have hecore : e ∈ core := by
        rw [hmerge] at hel
        exact List.mem_mergeSort.mp hel
      obtain ⟨b2, hb2, he2⟩ := hentry e hecore hek
      rw [hb] at hb2
      cases hb2
      exact he2

/-- C3 (witness): with reference date `01.01.2024` and one record with
birthday `03.01.1990`, the output is exactly one entry named Ann carrying
the string `03.01.1990`. -/
theorem birthdays_window_witness :
    ((⟨some ['A', 'n', 'n'], [], some ⟨1990, 1, 3⟩⟩ : Record).birthday = none →
        ([⟨['A', 'n', 'n'], ['0', '3', '.', '0', '1', '.', '1', '9', '9', '0']⟩] :
          List Entry).countP (fun e => decide (e.name = ['A', 'n', 'n'])) = 0) ∧
      (∀ b, (⟨some ['A', 'n', 'n'], [], some ⟨1990, 1, 3⟩⟩ : Record).birthday = some b →
        (([⟨['A', 'n', 'n'], ['0', '3', '.', '0', '1', '.', '1', '9', '9', '0']⟩] :
            List Entry).countP (fun e => decide (e.name = ['A', 'n', 'n'])) =
          if (firstMatchDelta ⟨2024, 1, 1⟩ b).isSome = true then 1 else 0) ∧
        ((firstMatchDelta ⟨2024, 1, 1⟩ b).isSome = true ↔
          ∃ delta ≤ 7, b.month = (addDays ⟨2024, 1, 1⟩ delta).month ∧
            b.day = (addDays ⟨2024, 1, 1⟩ delta).day) ∧
        (∀ e ∈ ([⟨['A', 'n', 'n'], ['0', '3', '.', '0', '1', '.', '1', '9', '9', '0']⟩] :
            List Entry), e.name = ['A', 'n', 'n'] →
          e.congratulation_date = formatDMY b)) :=
  birthdays_window (some ['0', '1', '.', '0', '1', '.', '2', '0', '2', '4']) ⟨2030, 5, 5⟩
    ⟨2024, 1, 1⟩
    [(['A', 'n', 'n'], ⟨some ['A', 'n', 'n'], [], some ⟨1990, 1, 3⟩⟩)]
    [⟨['A', 'n', 'n'], ['0', '3', '.', '0', '1', '.', '1', '9', '9', '0']⟩]
    ['A', 'n', 'n'] ⟨some ['A', 'n', 'n'], [], some ⟨1990, 1, 3⟩⟩
    (by rfl)
    (by
      unfold birthdays
      rw [show refToday (some ['0', '1', '.', '0', '1', '.', '2', '0', '2', '4'])
          ⟨2030, 5, 5⟩ = Except.ok ⟨2024, 1, 1⟩ from rfl]
      dsimp only
      rw [show collectMatches ⟨2024, 1, 1⟩
          ([(['A', 'n', 'n'],
            (⟨some ['A', 'n', 'n'], [], some ⟨1990, 1, 3⟩⟩ : Record))].map Prod.snd) =
          Except.ok [⟨['A', 'n', 'n'], ['0', '3', '.', '0', '1', '.', '1', '9', '9', '0']⟩]
          from rfl]
      dsimp only
      rw [List.mergeSort_singleton])
    (by decide) (by decide) (by decide)

/-- C9 (witness): two records matching a window spanning new year sort by
their own years (`31.12.1980` before `03.01.1990`). -/
theorem birthdays_output_sorted_witness :
    ([⟨['B', 'o', 'b'], ['3', '1', '.', '1', '2', '.', '1', '9', '8', '0']⟩,
      ⟨['A', 'n', 'n'], ['0', '3', '.', '0', '1', '.', '1', '9', '9', '0']⟩] :
        List Entry).Pairwise (fun a b => entryLeB a b = true) :=
  birthdays_output_sorted (some ['3', '0', '.', '1', '2', '.', '2', '0', '2', '4'])
    ⟨2030, 5, 5⟩
    [(['B', 'o', 'b'], ⟨some ['B', 'o', 'b'], [], some ⟨1980, 12, 31⟩⟩),
     (['A', 'n', 'n'], ⟨some ['A', 'n', 'n'], [], some ⟨1990, 1, 3⟩⟩)]
    [⟨['B', 'o', 'b'], ['3', '1', '.', '1', '2', '.', '1', '9', '8', '0']⟩,
     ⟨['A', 'n', 'n'], ['0', '3', '.', '0', '1', '.', '1', '9', '9', '0']⟩]
    (by
      unfold birthdays
      rw [show refToday (some ['3', '0', '.', '1', '2', '.', '2', '0', '2', '4'])
          ⟨2030, 5, 5⟩ = Except.ok ⟨2024, 12, 30⟩ from rfl]
      dsimp only
      rw [show collectMatches ⟨2024, 12, 30⟩
          ([(['B', 'o', 'b'], (⟨some ['B', 'o', 'b'], [], some ⟨1980, 12, 31⟩⟩ : Record)),
            (['A', 'n', 'n'],
              (⟨some ['A', 'n', 'n'], [], some ⟨1990, 1, 3⟩⟩ : Record))].map Prod.snd) =
          Except.ok [⟨['B', 'o', 'b'], ['3', '1', '.', '1', '2', '.', '1', '9', '8', '0']⟩,
            ⟨['A', 'n', 'n'], ['0', '3', '.', '0', '1', '.', '1', '9', '9', '0']⟩] from rfl]
      dsimp only
      rw [List.mergeSort_of_sorted (by decide)])


theorem dictFind_insert_self (k : Str) (v : Record) (b : Book) :
    dictFind k (dictInsert k v b) = some v := by
  induction b with
  | nil => simp [dictInsert, dictFind]
  | cons p rest ih =>
    by_cases h : p.1 = k
    · simp [dictInsert, h, dictFind]
    · simp [dictInsert, h, dictFind, ih]

theorem dictFind_insert_ne (k k1 : Str) (v : Record) (b : Book) (h : k1 ≠ k) :
    dictFind k (dictInsert k1 v b) = dictFind k b := by
  induction b with
  | nil => simp [dictInsert, dictFind, h]
  | cons p rest ih =>
    by_cases hp : p.1 = k1
    · simp [dictInsert, hp, dictFind, h]
    · simp [dictInsert, hp, dictFind, ih]

theorem dictInsert_append_of_not_mem (k : Str) (v : Record) (b : Book)
    (h : k ∉ b.map Prod.fst) :
    dictInsert k v b = b ++ [(k, v)] := by
  induction b with
  | nil => simp [dictInsert]
  | cons p rest ih =>
    rw [List.map_cons] at h
    have h1 : p.1 ≠ k := by
      intro he
      exact h (by rw [he]; exact List.mem_cons_self _ _)
    have h2 : k ∉ rest.map Prod.fst := by
      intro he
      exact h (List.mem_cons_of_mem _ he)
    simp [dictInsert, h1, ih h2]

theorem map_fst_dictInsert (k : Str) (v : Record) (b : Book) :
    (dictInsert k v b).map Prod.fst =
      if k ∈ b.map Prod.fst then b.map Prod.fst else b.map Prod.fst ++ [k] := by
  induction b with
  | nil => simp [dictInsert]
  | cons p rest ih =>
    by_cases h : p.1 = k
    · rw [show dictInsert k v (p :: rest) = (k, v) :: rest from by simp [dictInsert, h]]
      rw [List.map_cons, List.map_cons]
      rw [if_pos (by rw [← h]; exact List.mem_cons_self _ _)]
      rw [h]
    · rw [show dictInsert k v (p :: rest) = p :: dictInsert k v rest from by
        simp [dictInsert, h]]
      rw [List.map_cons, List.map_cons, ih]
      by_cases hk : k ∈ rest.map Prod.fst
      · rw [if_pos hk, if_pos (List.mem_cons_of_mem _ hk)]
      · rw [if_neg hk, if_neg ?_, List.cons_append]
        intro hmem
        rcases List.mem_cons.mp hmem with h1 | h2
        · exact h h1.symm
        · exact hk h2

theorem nodup_keys_dictInsert (k : Str) (v : Record) (b : Book)
    (h : (b.map Prod.fst).Nodup) : ((dictInsert k v b).map Prod.fst).Nodup := by
  rw [map_fst_dictInsert]
  split
  · exact h
  · rename_i hk
    simp [List.nodup_append, h, hk]

theorem splitOnChar_ne_nil (c : Char) (s : Str) : splitOnChar c s ≠ [] := by
  cases s with
  | nil => simp [splitOnChar]
  | cons x xs =>
    unfold splitOnChar
    split
    · simp
    · split <;> simp

theorem lineParts_ne_nil (line : Str) : lineParts line ≠ [] := by
  unfold lineParts
  intro h
  exact splitOnChar_ne_nil ',' (pyStrip line) (List.map_eq_nil_iff.mp h)

theorem add_phone_fold_closed : ∀ (tokens : List Str) (r : Record),
    tokens.foldl (fun rec p => (rec.add_phone p).2) r =
      ⟨r.name, r.phones ++ tokens.filter (fun p => validate_phone p), r.birthday⟩ := by
  intro tokens
  induction tokens with
  | nil => intro r; simp
  | cons t ts ih =>
    intro r
    rw [List.foldl_cons, ih]
    unfold Record.add_phone mkPhone
    by_cases hv : validate_phone t
    · simp [hv]
    · simp [hv]

theorem applyPartsToRecord_closed (restParts : List Str) (r : Record) :
    applyPartsToRecord restParts r =
      ⟨r.name,
       r.phones ++
         (((splitOnChar '-' (restParts.headD [])).map pyStrip).filter
             (fun p => p ≠ [])).filter (fun p => validate_phone p),
       match r.birthday with
       | some d => some d
       | none =>
         match restParts[1]? with
         | some b => if b ≠ [] then mkBirthday b else none
         | none => none⟩ := by
  unfold applyPartsToRecord
  dsimp only
  rw [add_phone_fold_closed]
  cases hb : restParts[1]? with
  | none => cases r.birthday <;> rfl
  | some b =>
    dsimp only
    by_cases hbe : b = []
    · subst hbe
      cases r.birthday <;> rfl
    · rw [if_pos hbe]
      unfold Record.add_birthday
      cases hrb : r.birthday with
      | some d => simp [hrb]
      | none =>
        cases hmk : mkBirthday b with
        | none => simp [hrb, hmk, hbe]
        | some d => simp [hrb, hmk, hbe]

theorem lineParts_head_tail (l : Str) :
    lineParts l = lineName l :: (lineParts l).tail := by
  cases hlp : lineParts l with
  | nil => exact absurd hlp (lineParts_ne_nil l)
  | cons nm rest =>
    unfold lineName
    rw [hlp]
    rfl

theorem foldl_processLine_find (k : Str) : ∀ (lines : List Str) (acc : Book),
    dictFind k (lines.foldl processLine acc) =
      (match dictFind k acc with
      | some r =>
        some ((lines.filter (fun l => lineName l = k)).foldl
          (fun r l => applyPartsToRecord ((lineParts l).tail) r) r)
      | none =>
        if lines.filter (fun l => lineName l = k) = [] then none
        else some ((lines.filter (fun l => lineName l = k)).foldl
          (fun r l => applyPartsToRecord ((lineParts l).tail) r) (Record.make k))) := by
  intro lines
  induction lines with
  | nil =>
    intro acc
    cases hacc : dictFind k acc <;> simp [hacc]
  | cons l ls ih =>
    intro acc
    rw [List.foldl_cons]
    have hproc : processLine acc l =
        dictInsert (lineName l)
          (applyPartsToRecord ((lineParts l).tail)
            (match dictFind (lineName l) acc with
             | some r => r
             | none => Record.make (lineName l))) acc := by
      unfold processLine
      conv_lhs => rw [lineParts_head_tail l]
    by_cases hnk : lineName l = k
    · rw [ih (processLine acc l)]
      rw [show dictFind k (processLine acc l) =
          some (applyPartsToRecord ((lineParts l).tail)
            (match dictFind k acc with
             | some r => r
             | none => Record.make k)) from by rw [hproc, hnk, dictFind_insert_self]]
      rw [show (l :: ls).filter (fun x => decide (lineName x = k)) =
          l :: ls.filter (fun x => decide (lineName x = k)) from by
        rw [List.filter_cons_of_pos (by simp [hnk])]]
      cases hacc : dictFind k acc with
      | some r =>
        dsimp only
        rw [List.foldl_cons]
      | none =>
        dsimp only
        rw [if_neg (by simp), List.foldl_cons]
    · rw [ih (processLine acc l)]
      rw [show dictFind k (processLine acc l) = dictFind k acc from by
        rw [hproc, dictFind_insert_ne _ _ _ _ hnk]]
      rw [show (l :: ls).filter (fun x => decide (lineName x = k)) =
          ls.filter (fun x => decide (lineName x = k)) from by
        rw [List.filter_cons_of_neg (by simp [hnk])]]

theorem applyParts_fold_record : ∀ (rel : List Str) (r : Record),
    rel.foldl (fun r l => applyPartsToRecord ((lineParts l).tail) r) r =
      ⟨r.name,
       r.phones ++ rel.flatMap linePhonesParsed,
       match r.birthday with
       | some d => some d
       | none => rel.findSome? lineBdayParsed⟩ := by
  intro rel
  induction rel with
  | nil =>
    intro r
    cases r with
    | mk nm ph bd => cases bd <;> simp
  | cons l ls ih =>
    intro r
    cases r with
    | mk nm ph bd =>
      rw [List.foldl_cons, applyPartsToRecord_closed, ih]
      cases bd with
      | some d => simp [linePhonesParsed, List.append_assoc]
      | none =>
        simp only [linePhonesParsed, lineBdayParsed, List.flatMap_cons, List.append_assoc,
          List.findSome?_cons]
        cases hx : (lineParts l).tail[1]? with
        | none => rfl
        | some b =>
          dsimp only
          by_cases hbe : b = []
          · rw [if_neg (by simp [hbe])]
          · rw [if_pos hbe]
            cases mkBirthday b <;> rfl

theorem nodup_keys_foldl_processLine : ∀ (lines : List Str) (acc : Book),
    (acc.map Prod.fst).Nodup → ((lines.foldl processLine acc).map Prod.fst).Nodup := by
  intro lines
  induction lines with
  | nil => intro acc h; exact h
  | cons l ls ih =>
    intro acc h
    rw [List.foldl_cons]
    apply ih
    unfold processLine
    cases hlp : lineParts l with
    | nil => exact h
    | cons nm rest =>
      dsimp only
      exact nodup_keys_dictInsert _ _ _ h

/-- C10: in `file_read`, lines sharing one name merge into a single record:
the result has no duplicate keys, and the record stored under any name `k`
(present iff some line carries it) collects the valid phone tokens of every
such line in file order, and keeps the first valid nonempty birthday token
while rejecting birthdays of later duplicate lines. -/
theorem file_read_merges_lines (content : Str) (k : Str) :
    ((file_read content).map Prod.fst).Nodup ∧
    dictFind k (file_read content) =
      (if (pyFileLines content).filter (fun l => lineName l = k) = [] then none
       else some ⟨mkName k,
         ((pyFileLines content).filter (fun l => lineName l = k)).flatMap linePhonesParsed,
         ((pyFileLines content).filter (fun l => lineName l = k)).findSome?
           lineBdayParsed⟩) := by
  constructor
  · exact nodup_keys_foldl_processLine (pyFileLines content) [] (by simp)
  · unfold file_read
    rw [foldl_processLine_find]
    rw [show dictFind k ([] : Book) = none from rfl]
    dsimp only
    split
    · rfl
    · rw [applyParts_fold_record]
      rw [show (Record.make k).name = mkName k from rfl]
      rw [show (Record.make k).phones = [] from rfl]
      rw [show (Record.make k).birthday = none from rfl]
      simp

theorem pyStrip_eq_self_of (l : Str) (h1 : l.dropWhile pyIsSpace = l)
    (h2 : l.reverse.dropWhile pyIsSpace = l.reverse) : pyStrip l = l := by
  unfold pyStrip
  rw [h1, h2, List.reverse_reverse]

theorem dropWhile_eq_self_of_head (p : Char → Bool) (c : Char) (t : Str)
    (h : p c = false) : (c :: t).dropWhile p = c :: t := by
  rw [List.dropWhile_cons, if_neg (by simp [h])]

theorem pyStrip_of_ends (c : Char) (t : Str) (B : Str) (d : Char)
    (hps : pyIsSpace c = false) (hpd : pyIsSpace d = false)
    (hform : c :: t = B ++ [d]) : pyStrip (c :: t) = c :: t := by
  apply pyStrip_eq_self_of
  · exact dropWhile_eq_self_of_head _ _ _ hps
  · rw [hform]
    rw [show (B ++ [d]).reverse = d :: B.reverse by simp]
    exact dropWhile_eq_self_of_head _ _ _ hpd

theorem pyStrip_cons_space (x : Str) : pyStrip (' ' :: x) = pyStrip x := by
  unfold pyStrip
  rw [List.dropWhile_cons, if_pos (by decide)]

theorem splitOnChar_append_cons (c : Char) (a b : Str) (h : c ∉ a) :
    splitOnChar c (a ++ c :: b) = a :: splitOnChar c b := by
  induction a with
  | nil => simp [splitOnChar]
  | cons x xs ih =>
    have hx : x ≠ c := fun he => h (he ▸ List.mem_cons_self _ _)
    have hxs : c ∉ xs := fun he => h (List.mem_cons_of_mem _ he)
    rw [List.cons_append]
    rw [show splitOnChar c (x :: (xs ++ c :: b)) =
        (match splitOnChar c (xs ++ c :: b) with
         | [] => [[x]]
         | h :: t => (x :: h) :: t) from by
      conv_lhs => rw [splitOnChar.eq_def]
      dsimp only
      rw [if_neg hx]]
    rw [ih hxs]

theorem splitOnChar_of_not_mem (c : Char) (a : Str) (h : c ∉ a) :
    splitOnChar c a = [a] := by
  induction a with
  | nil => rfl
  | cons x xs ih =>
    have hx : x ≠ c := fun he => h (he ▸ List.mem_cons_self _ _)
    have hxs : c ∉ xs := fun he => h (List.mem_cons_of_mem _ he)
    rw [show splitOnChar c (x :: xs) =
        (match splitOnChar c xs with
         | [] => [[x]]
         | h :: t => (x :: h) :: t) from by
      conv_lhs => rw [splitOnChar.eq_def]
      dsimp only
      rw [if_neg hx]]
    rw [ih hxs]

theorem isDigit_ne (c d : Char) (h : c.isDigit = true) (hd : d.isDigit = false) :
    c ≠ d := by
  intro he
  rw [he, hd] at h
  exact absurd h (by simp)

theorem isDigit_not_space (c : Char) (h : c.isDigit = true) : pyIsSpace c = false := by
  cases hps : pyIsSpace c with
  | false => rfl
  | true =>
    exfalso
    unfold pyIsSpace at hps
    simp only [Bool.or_eq_true, decide_eq_true_eq] at hps
    rcases hps with ((((h1 | h1) | h1) | h1) | h1) | h1 <;>
      (try subst h1) <;> exact absurd h (by decide)

theorem normNewlines_cons_of_ne (x : Char) (xs : Str) (h : x ≠ '\r') :
    normNewlines (x :: xs) = x :: normNewlines xs := by
  conv_lhs => rw [normNewlines.eq_def]
  dsimp only
  rw [if_neg h]

theorem normNewlines_eq_self : ∀ (l : Str), '\r' ∉ l → normNewlines l = l := by
  intro l
  induction l with
  | nil => intro h; rfl
  | cons x xs ih =>
    intro h
    have hx : x ≠ '\r' := fun he => h (he ▸ List.mem_cons_self _ _)
    have hxs : '\r' ∉ xs := fun he => h (List.mem_cons_of_mem _ he)
    rw [normNewlines_cons_of_ne _ _ hx, ih hxs]

theorem dropWhile_eq_self_head_false (p : Char → Bool) (c : Char) (t : Str)
    (h : (c :: t).dropWhile p = c :: t) : p c = false := by
  cases hc : p c with
  | false => rfl
  | true =>
    exfalso
    rw [List.dropWhile_cons, if_pos (by simp [hc])] at h
    have hlen := congrArg List.length h
    have hle : (t.dropWhile p).length ≤ t.length :=
      List.Sublist.length_le (List.dropWhile_sublist p)
    simp at hlen
    omega

theorem strip_self_parts (n : Str) (hstrip : pyStrip n = n) :
    n.dropWhile pyIsSpace = n ∧ n.reverse.dropWhile pyIsSpace = n.reverse := by
  have hlen : (pyStrip n).length = n.length := by rw [hstrip]
  have e1 : (pyStrip n).length =
      ((n.dropWhile pyIsSpace).reverse.dropWhile pyIsSpace).length := by
    unfold pyStrip
    exact List.length_reverse _
  have e2 : ((n.dropWhile pyIsSpace).reverse.dropWhile pyIsSpace).length ≤
      (n.dropWhile pyIsSpace).length := by
    calc ((n.dropWhile pyIsSpace).reverse.dropWhile pyIsSpace).length
        ≤ (n.dropWhile pyIsSpace).reverse.length := (List.dropWhile_sublist _).length_le
      _ = (n.dropWhile pyIsSpace).length := List.length_reverse _
  have e3 : (n.dropWhile pyIsSpace).length ≤ n.length := (List.dropWhile_sublist _).length_le
  have hfst : n.dropWhile pyIsSpace = n :=
    (List.dropWhile_sublist _).eq_of_length (by omega)
  refine ⟨hfst, ?_⟩
  have : pyStrip n = (n.reverse.dropWhile pyIsSpace).reverse := by
    unfold pyStrip
    rw [hfst]
  rw [hstrip] at this
  have := congrArg List.reverse this
  rw [List.reverse_reverse] at this
  exact this.symm

theorem strip_self_head (n : Str) (hne : n ≠ []) (hstrip : pyStrip n = n) :
    ∃ c t, n = c :: t ∧ pyIsSpace c = false := by
  obtain ⟨hfst, _⟩ := strip_self_parts n hstrip
  cases n with
  | nil => exact absurd rfl hne
  | cons c t => exact ⟨c, t, rfl, dropWhile_eq_self_head_false _ _ _ hfst⟩

theorem strip_self_last (n : Str) (hne : n ≠ []) (hstrip : pyStrip n = n) :
    ∃ B d, n = B ++ [d] ∧ pyIsSpace d = false := by
  obtain ⟨_, hsnd⟩ := strip_self_parts n hstrip
  cases hrev : n.reverse with
  | nil =>
    exfalso
    have := congrArg List.reverse hrev
    rw [List.reverse_reverse] at this
    exact hne (by simpa using this)
  | cons d u =>
    refine ⟨u.reverse, d, ?_, ?_⟩
    · have := congrArg List.reverse hrev
      rw [List.reverse_reverse] at this
      simpa using this
    · rw [hrev] at hsnd
      exact dropWhile_eq_self_head_false _ _ _ hsnd

theorem mem_joinWithChar (c sep : Char) : ∀ (l : List Str),
    c ∈ joinWithChar sep l → c = sep ∨ ∃ p ∈ l, c ∈ p := by
  intro l
  induction l with
  | nil => intro h; exact absurd h (by simp [joinWithChar])
  | cons p rest ih =>
    intro h
    cases rest with
    | nil =>
      right
      exact ⟨p, by simp, by simpa [joinWithChar] using h⟩
    | cons q rest2 =>
      rw [show joinWithChar sep (p :: q :: rest2) =
          p ++ sep :: joinWithChar sep (q :: rest2) from rfl] at h
      rcases List.mem_append.mp h with hp | hsep
      · exact Or.inr ⟨p, by simp, hp⟩
      · rcases List.mem_cons.mp hsep with hc | hrest
        · exact Or.inl hc
        · rcases ih hrest with hc | ⟨p2, hp2, hcp2⟩
          · exact Or.inl hc
          · exact Or.inr ⟨p2, List.mem_cons_of_mem _ hp2, hcp2⟩

theorem join_good_ends (phones : List Str) (h : ∀ p ∈ phones, goodPhone p)
    (hne : phones ≠ []) :
    ∃ c t, joinWithChar '-' phones = c :: t ∧ c.isDigit = true ∧
      ∃ B d, joinWithChar '-' phones = B ++ [d] ∧ d.isDigit = true := by
  have hlast : ∀ (ps : List Str), (∀ p ∈ ps, goodPhone p) → ps ≠ [] →
      ∃ B d, joinWithChar '-' ps = B ++ [d] ∧ d.isDigit = true := by
    intro ps
    induction ps with
    | nil => intro _ hn; exact absurd rfl hn
    | cons p rest ih =>
      intro hps _
      cases rest with
      | nil =>
        have hp := hps p (by simp)
        have hpne : p ≠ [] := by
          intro he
          rw [he] at hp
          exact absurd hp.1 (by simp)
        refine ⟨p.dropLast, p.getLast hpne, ?_, ?_⟩
        · rw [show joinWithChar '-' [p] = p from rfl]
          exact (List.dropLast_append_getLast hpne).symm
        · have hmem := List.getLast_mem hpne
          have := hp.2
          rw [List.all_eq_true] at this
          exact this _ hmem
      | cons q rest2 =>
        obtain ⟨B, d, hBd, hd⟩ := ih (fun p hp => hps p (List.mem_cons_of_mem _ hp))
          (by simp)
        refine ⟨p ++ '-' :: B, d, ?_, hd⟩
        rw [show joinWithChar '-' (p :: q :: rest2) =
            p ++ '-' :: joinWithChar '-' (q :: rest2) from rfl]
        rw [hBd]
        simp
  cases phones with
  | nil => exact absurd rfl hne
  | cons p rest =>
    have hp := h p (by simp)
    have hpne : p ≠ [] := by
      intro he
      rw [he] at hp
      exact absurd hp.1 (by simp)
    obtain ⟨c, t, hpc⟩ := List.exists_cons_of_ne_nil hpne
    have hcd : c.isDigit = true := by
      have := hp.2
      rw [List.all_eq_true] at this
      exact this c (by rw [hpc]; simp)
    obtain ⟨B, d, hBd, hd⟩ := hlast (p :: rest) h (by simp)
    cases rest with
    | nil =>
      exact ⟨c, t, by rw [show joinWithChar '-' [p] = p from rfl, hpc], hcd,
        B, d, hBd, hd⟩
    | cons q rest2 =>
      refine ⟨c, t ++ '-' :: joinWithChar '-' (q :: rest2), ?_, hcd, B, d, hBd, hd⟩
      rw [show joinWithChar '-' (p :: q :: rest2) =
          p ++ '-' :: joinWithChar '-' (q :: rest2) from rfl]
      rw [hpc]
      rfl

theorem dictFind_eq_none_of_not_mem (k : Str) (b : Book) (h : k ∉ b.map Prod.fst) :
    dictFind k b = none := by
  induction b with
  | nil => rfl
  | cons p rest ih =>
    rw [List.map_cons] at h
    have h1 : p.1 ≠ k := by
      intro he
      exact h (by rw [he]; exact List.mem_cons_self _ _)
    have h2 : k ∉ rest.map Prod.fst := by
      intro he
      exact h (List.mem_cons_of_mem _ he)
    unfold dictFind
    rw [if_neg h1]
    exact ih h2

theorem mem_formatDMY (c : Char) (d : Date) (h : c ∈ formatDMY d) :
    c.isDigit = true ∨ c = '.' := by
  unfold formatDMY pad2 pad4 at h
  simp only [List.cons_append, List.nil_append, List.mem_cons, List.mem_append,
    List.not_mem_nil, or_false] at h
  rcases h with rfl | rfl | rfl | rfl | rfl | rfl | rfl | rfl | rfl | rfl <;>
    first
      | exact Or.inr rfl
      | exact Or.inl (isDigit_digitChar _ (Nat.mod_lt _ (by omega)))

theorem formatDMY_head (d : Date) :
    formatDMY d = Char.ofNat (48 + d.day / 10 % 10) ::
      (Char.ofNat (48 + d.day % 10) :: '.' :: (pad2 d.month ++ ('.' :: pad4 d.year))) := rfl

theorem formatDMY_last (d : Date) :
    formatDMY d = (pad2 d.day ++ ('.' :: (pad2 d.month ++ ('.' ::
        [Char.ofNat (48 + d.year / 1000 % 10), Char.ofNat (48 + d.year / 100 % 10),
         Char.ofNat (48 + d.year / 10 % 10)])))) ++ [Char.ofNat (48 + d.year % 10)] := by
  unfold formatDMY pad4
  simp

theorem pyFileLines_append (a rest : Str) (h1 : '\n' ∉ a) (h2 : '\r' ∉ a)
    (h3 : '\r' ∉ rest) :
    pyFileLines (a ++ '\n' :: rest) = a :: pyFileLines rest := by
  unfold pyFileLines
  rw [normNewlines_eq_self _ (by
    intro hmem
    rcases List.mem_append.mp hmem with hma | hmr
    · exact h2 hma
    · rcases List.mem_cons.mp hmr with he | hmr2
      · exact absurd he (by decide)
      · exact h3 hmr2)]
  rw [normNewlines_eq_self _ h3]
  rw [splitOnChar_append_cons _ _ _ h1]
  dsimp only
  cases hq : splitOnChar '\n' rest with
  | nil => exact absurd hq (splitOnChar_ne_nil _ _)
  | cons q qs =>
    rw [show (a :: q :: qs).getLast? = (q :: qs).getLast? from List.getLast?_cons_cons]
    cases hl : (q :: qs).getLast? with
    | none => rfl
    | some v =>
      cases v with
      | nil => rfl
      | cons z zs => rfl

theorem mkBirthday_formatDMY_of_valid (d : Date) (h : goodBirthdate d) :
    mkBirthday (formatDMY d) = some d := by
  obtain ⟨⟨hy1, hy2, hm1, hm2, hd1, hdm⟩, hy1900, hy2099⟩ := h
  have hd31 : d.day ≤ 31 := by
    have : daysInMonth d.year d.month ≤ 31 := by
      unfold daysInMonth
      split
      · split <;> omega
      · split <;> omega
    omega
  unfold mkBirthday
  rw [validate_birthday_formatDMY d hd1 hd31 hm1 hm2 hy1900 hy2099]
  rw [strptimeDMY_formatDMY d hd1 hd31 hm1 hm2 hy1 hy2]
  simp [hdm]

theorem validate_phone_of_good (p : Str) (h : goodPhone p) : validate_phone p = true := by
  obtain ⟨hlen, hdig⟩ := h
  unfold validate_phone reFullMatch phoneRE
  rw [remainders_reps_digitC]
  rw [if_pos ⟨by omega, by rw [List.take_of_length_le (by omega)]; exact hdig⟩]
  have : p.drop 10 = [] := by
    rw [List.drop_eq_nil_iff]
    omega
  simp [this, dollarAccept]

theorem formatDMY_ne_nil (d : Date) : formatDMY d ≠ [] := by
  rw [formatDMY_head]
  simp

theorem pyStrip_all_digits (p : Str) (hne : p ≠ []) (hd : p.all Char.isDigit = true) :
    pyStrip p = p := by
  rw [List.all_eq_true] at hd
  obtain ⟨c, t, hct⟩ := List.exists_cons_of_ne_nil hne
  rw [hct]
  refine pyStrip_of_ends c t (p.dropLast) (p.getLast hne) ?_ ?_ ?_
  · exact isDigit_not_space c (hd c (by rw [hct]; simp))
  · exact isDigit_not_space _ (hd _ (List.getLast_mem hne))
  · rw [← hct]
    exact (List.dropLast_append_getLast hne).symm

theorem dash_not_digit : ('-' : Char).isDigit = false := by decide

theorem splitOnChar_join (ps : List Str)
    (h : ∀ p ∈ ps, p ≠ [] ∧ '-' ∉ p) (hne : ps ≠ []) :
    splitOnChar '-' (joinWithChar '-' ps) = ps := by
  induction ps with
  | nil => exact absurd rfl hne
  | cons p rest ih =>
    cases rest with
    | nil =>
      rw [show joinWithChar '-' [p] = p from rfl]
      exact splitOnChar_of_not_mem _ _ (h p (by simp)).2
    | cons q rest2 =>
      rw [show joinWithChar '-' (p :: q :: rest2) =
          p ++ '-' :: joinWithChar '-' (q :: rest2) from rfl]
      rw [splitOnChar_append_cons _ _ _ (h p (by simp)).2]
      rw [ih (fun x hx => h x (List.mem_cons_of_mem _ hx)) (by simp)]

theorem goodPhone_ne_nil (p : Str) (h : goodPhone p) : p ≠ [] := by
  intro he
  rw [he] at h
  exact absurd h.1 (by simp)

theorem goodPhone_no_dash (p : Str) (h : goodPhone p) : '-' ∉ p := by
  intro hmem
  have hall := h.2
  rw [List.all_eq_true] at hall
  exact absurd (hall _ hmem) (by decide)

theorem mem_lineOf_cases (c : Char) (n : Str) (r : Record) (h : c ∈ lineOf n r) :
    c ∈ n ∨ c = ',' ∨ c = ' ' ∨ c = '-' ∨
      (∃ p ∈ r.phones, c ∈ p) ∨ (∃ d, r.birthday = some d ∧ c ∈ formatDMY d) := by
  unfold lineOf at h
  cases hbd : r.birthday with
  | some d =>
    rw [hbd] at h
    dsimp only at h
    rcases List.mem_append.mp h with hn | hrest
    · exact Or.inl hn
    · rcases List.mem_cons.mp hrest with he | hrest2
      · exact Or.inr (Or.inl he)
      · rcases List.mem_cons.mp hrest2 with he | hrest3
        · exact Or.inr (Or.inr (Or.inl he))
        · rcases List.mem_append.mp hrest3 with hj | hrest4
          · rcases mem_joinWithChar _ _ _ hj with he | hp
            · exact Or.inr (Or.inr (Or.inr (Or.inl he)))
            · exact Or.inr (Or.inr (Or.inr (Or.inr (Or.inl hp))))
          · rcases List.mem_cons.mp hrest4 with he | hrest5
            · exact Or.inr (Or.inl he)
            · rcases List.mem_cons.mp hrest5 with he | hfmt
              · exact Or.inr (Or.inr (Or.inl he))
              · exact Or.inr (Or.inr (Or.inr (Or.inr (Or.inr ⟨d, rfl, hfmt⟩))))
  | none =>
    rw [hbd] at h
    dsimp only at h
    rcases List.mem_append.mp h with hn | hrest
    · exact Or.inl hn
    · rcases List.mem_cons.mp hrest with he | hrest2
      · exact Or.inr (Or.inl he)
      · rcases List.mem_cons.mp hrest2 with he | hrest3
        · exact Or.inr (Or.inr (Or.inl he))
        · rcases List.mem_append.mp hrest3 with hj | hrest4
          · rcases mem_joinWithChar _ _ _ hj with he | hp
            · exact Or.inr (Or.inr (Or.inr (Or.inl he)))
            · exact Or.inr (Or.inr (Or.inr (Or.inr (Or.inl hp))))
          · rcases List.mem_cons.mp hrest4 with he | hf
            · exact Or.inr (Or.inl he)
            · exact absurd hf (by simp)

theorem lineOf_no_nl_cr (n : Str) (r : Record)
    (hn : ∀ c ∈ n, c ≠ ',' ∧ c ≠ '\n' ∧ c ≠ '\r')
    (hph : ∀ p ∈ r.phones, goodPhone p) :
    '\n' ∉ lineOf n r ∧ '\r' ∉ lineOf n r := by
  constructor <;> intro hmem <;>
    rcases mem_lineOf_cases _ _ _ hmem with hcn | he | he | he | ⟨p, hp, hcp⟩ | ⟨d, hd, hcf⟩
  · exact absurd rfl (hn _ hcn).2.1
  · exact absurd he (by decide)
  · exact absurd he (by decide)
  · exact absurd he (by decide)
  · have := (hph p hp).2
    rw [List.all_eq_true] at this
    exact absurd (this _ hcp) (by decide)
  · rcases mem_formatDMY _ _ hcf with hdg | he
    · exact absurd hdg (by decide)
    · exact absurd he (by decide)
  · exact absurd rfl (hn _ hcn).2.2
  · exact absurd he (by decide)
  · exact absurd he (by decide)
  · exact absurd he (by decide)
  · have := (hph p hp).2
    rw [List.all_eq_true] at this
    exact absurd (this _ hcp) (by decide)
  · rcases mem_formatDMY _ _ hcf with hdg | he
    · exact absurd hdg (by decide)
    · exact absurd he (by decide)

theorem comma_notin_spacejoin (r : Record) (hph : ∀ p ∈ r.phones, goodPhone p) :
    ',' ∉ (' ' :: joinWithChar '-' r.phones : Str) := by
  intro hmem
  rcases List.mem_cons.mp hmem with he | hj
  · exact absurd he (by decide)
  · rcases mem_joinWithChar _ _ _ hj with he | ⟨p, hp, hcp⟩
    · exact absurd he (by decide)
    · have hall := (hph p hp).2
      rw [List.all_eq_true] at hall
      exact absurd (hall _ hcp) (by decide)

theorem pyStrip_join (r : Record) (hph : ∀ p ∈ r.phones, goodPhone p) :
    pyStrip (joinWithChar '-' r.phones) = joinWithChar '-' r.phones := by
  cases hps : r.phones with
  | nil => rfl
  | cons p rest =>
    have hgood : ∀ q ∈ r.phones, goodPhone q := hph
    rw [hps] at hgood
    obtain ⟨c, t, hct, hcd, B, d, hBd, hd⟩ :=
      join_good_ends (p :: rest) hgood (by simp)
    rw [hct]
    exact pyStrip_of_ends c t B d (isDigit_not_space _ hcd) (isDigit_not_space _ hd)
      (hct ▸ hBd)

theorem pyStrip_formatDMY (d : Date) : pyStrip (formatDMY d) = formatDMY d := by
  rw [formatDMY_head]
  refine pyStrip_of_ends _ _
    (pad2 d.day ++ ('.' :: (pad2 d.month ++ ('.' ::
      [Char.ofNat (48 + d.year / 1000 % 10), Char.ofNat (48 + d.year / 100 % 10),
       Char.ofNat (48 + d.year / 10 % 10)]))))
    (Char.ofNat (48 + d.year % 10)) ?_ ?_ ?_
  · exact isDigit_not_space _ (isDigit_digitChar _ (Nat.mod_lt _ (by omega)))
  · exact isDigit_not_space _ (isDigit_digitChar _ (Nat.mod_lt _ (by omega)))
  · rw [← formatDMY_head]
    exact formatDMY_last d

theorem pyStrip_lineOf (n : Str) (r : Record) (hgood : goodName n)
    (_hph : ∀ p ∈ r.phones, goodPhone p) :
    pyStrip (lineOf n r) = lineOf n r := by
  obtain ⟨hne, hstrip, hchars⟩ := hgood
  obtain ⟨c, t, hct, hcs⟩ := strip_self_head n hne hstrip
  cases hbd : r.birthday with
  | some d =>
    have hform : lineOf n r =
        (n ++ ',' :: ' ' :: (joinWithChar '-' r.phones ++ ',' :: ' ' ::
          (pad2 d.day ++ ('.' :: (pad2 d.month ++ ('.' ::
            [Char.ofNat (48 + d.year / 1000 % 10), Char.ofNat (48 + d.year / 100 % 10),
             Char.ofNat (48 + d.year / 10 % 10)])))))) ++
          [Char.ofNat (48 + d.year % 10)] := by
      unfold lineOf
      rw [hbd]
      dsimp only
      rw [formatDMY_last d]
      simp
    have hcons : lineOf n r = c :: (t ++ ',' :: ' ' ::
        (joinWithChar '-' r.phones ++ ',' :: ' ' :: formatDMY d)) := by
      unfold lineOf
      rw [hbd, hct]
      rfl
    rw [hcons]
    exact pyStrip_of_ends _ _ _ _ hcs
      (isDigit_not_space _ (isDigit_digitChar _ (Nat.mod_lt _ (by omega))))
      (hcons ▸ hform)
  | none =>
    have hform : lineOf n r =
        (n ++ ',' :: ' ' :: joinWithChar '-' r.phones) ++ [','] := by
      unfold lineOf
      rw [hbd]
      dsimp only
      simp
    have hcons : lineOf n r = c :: (t ++ ',' :: ' ' ::
        (joinWithChar '-' r.phones ++ [','])) := by
      unfold lineOf
      rw [hbd, hct]
      rfl
    rw [hcons]
    exact pyStrip_of_ends _ _ _ _ hcs (by decide) (hcons ▸ hform)

theorem lineParts_lineOf (n : Str) (r : Record) (hgood : goodName n)
    (hph : ∀ p ∈ r.phones, goodPhone p) :
    lineParts (lineOf n r) =
      [n, joinWithChar '-' r.phones,
       match r.birthday with
       | some d => formatDMY d
       | none => []] := by
  obtain ⟨hne, hstrip, hchars⟩ := hgood
  have hnc : ',' ∉ n := fun hmem => absurd rfl (hchars _ hmem).1
  unfold lineParts
  rw [pyStrip_lineOf n r ⟨hne, hstrip, hchars⟩ hph]
  cases hbd : r.birthday with
  | some d =>
    have hsplit : splitOnChar ',' (lineOf n r) =
        [n, ' ' :: joinWithChar '-' r.phones, ' ' :: formatDMY d] := by
      rw [show lineOf n r =
          n ++ ',' :: ((' ' :: joinWithChar '-' r.phones) ++
            ',' :: (' ' :: formatDMY d)) from by
        unfold lineOf
        rw [hbd]
        rfl]
      rw [splitOnChar_append_cons _ _ _ hnc]
      rw [splitOnChar_append_cons _ _ _ (comma_notin_spacejoin r hph)]
      rw [splitOnChar_of_not_mem _ _ ?_]
      intro hmem
      rcases List.mem_cons.mp hmem with he | hf
      · exact absurd he (by decide)
      · rcases mem_formatDMY _ _ hf with hdg | he
        · exact absurd hdg (by decide)
        · exact absurd he (by decide)
    rw [hsplit]
    rw [List.map_cons, List.map_cons, List.map_cons, List.map_nil]
    rw [hstrip, pyStrip_cons_space, pyStrip_cons_space,
      pyStrip_join r hph, pyStrip_formatDMY]
  | none =>
    have hsplit : splitOnChar ',' (lineOf n r) =
        [n, ' ' :: joinWithChar '-' r.phones, []] := by
      rw [show lineOf n r =
          n ++ ',' :: ((' ' :: joinWithChar '-' r.phones) ++ ',' :: ([] : Str)) from by
        unfold lineOf
        rw [hbd]
        rfl]
      rw [splitOnChar_append_cons _ _ _ hnc]
      rw [splitOnChar_append_cons _ _ _ (comma_notin_spacejoin r hph)]
      rfl
    rw [hsplit]
    rw [List.map_cons, List.map_cons, List.map_cons, List.map_nil]
    rw [hstrip, pyStrip_cons_space, pyStrip_join r hph]
    rfl

theorem phones_parse_roundtrip (phones : List Str)
    (hph : ∀ p ∈ phones, goodPhone p) :
    (((splitOnChar '-' (joinWithChar '-' phones)).map pyStrip).filter
        (fun p => p ≠ [])).filter (fun p => validate_phone p) = phones := by
  cases hps : phones with
  | nil => rfl
  | cons p rest =>
    rw [← hps]
    have hgood : ∀ q ∈ phones, goodPhone q := hph
    rw [splitOnChar_join phones
      (fun q hq => ⟨goodPhone_ne_nil q (hgood q hq), goodPhone_no_dash q (hgood q hq)⟩)
      (by rw [hps]; simp)]
    rw [show phones.map pyStrip = phones from by
      have : ∀ q ∈ phones, pyStrip q = q := fun q hq =>
        pyStrip_all_digits q (goodPhone_ne_nil q (hgood q hq)) (hgood q hq).2
      calc phones.map pyStrip = phones.map id := List.map_congr_left this
        _ = phones := List.map_id _]
    have hf1 : List.filter (fun p => decide (p ≠ [])) phones = phones :=
      List.filter_eq_self.mpr (fun q hq => by simpa using goodPhone_ne_nil q (hgood q hq))
    have hf2 : List.filter (fun p => validate_phone p) phones = phones :=
      List.filter_eq_self.mpr (fun q hq => validate_phone_of_good q (hgood q hq))
    rw [hf1, hf2]

theorem applyParts_lineOf (n : Str) (r : Record) (hgood : goodName n)
    (hph : ∀ p ∈ r.phones, goodPhone p)
    (hbd : ∀ d, r.birthday = some d → goodBirthdate d)
    (hname : r.name = some n) :
    applyPartsToRecord ((lineParts (lineOf n r)).tail) (Record.make n) = r := by
  have hmk : mkName n = some n := by
    unfold mkName
    rw [if_neg hgood.1]
  have hrec : Record.make n = ⟨some n, [], none⟩ := by
    unfold Record.make
    rw [hmk]
  cases hb : r.birthday with
  | some d =>
    rw [lineParts_lineOf n r hgood hph, hb]
    dsimp only [List.tail_cons]
    rw [applyPartsToRecord_closed, hrec]
    dsimp only
    rw [show ([joinWithChar '-' r.phones, formatDMY d] : List Str).headD [] =
      joinWithChar '-' r.phones from rfl]
    rw [show ([joinWithChar '-' r.phones, formatDMY d] : List Str)[1]? =
      some (formatDMY d) from rfl]
    dsimp only
    rw [if_pos (formatDMY_ne_nil d)]
    rw [mkBirthday_formatDMY_of_valid d (hbd d hb)]
    rw [List.nil_append, phones_parse_roundtrip r.phones hph]
    cases r with
    | mk rn rp rb =>
      dsimp only at hname hb ⊢
      rw [hname, hb]
  | none =>
    rw [lineParts_lineOf n r hgood hph, hb]
    dsimp only [List.tail_cons]
    rw [applyPartsToRecord_closed, hrec]
    dsimp only
    rw [show ([joinWithChar '-' r.phones, []] : List Str).headD [] =
      joinWithChar '-' r.phones from rfl]
    rw [show ([joinWithChar '-' r.phones, []] : List Str)[1]? = some [] from rfl]
    dsimp only
    rw [if_neg (by simp)]
    rw [List.nil_append, phones_parse_roundtrip r.phones hph]
    cases r with
    | mk rn rp rb =>
      dsimp only at hname hb ⊢
      rw [hname, hb]

theorem applyParts_explicit (n : Str) (r : Record) (hgood : goodName n)
    (hph : ∀ p ∈ r.phones, goodPhone p)
    (hbd : ∀ d, r.birthday = some d → goodBirthdate d)
    (hname : r.name = some n) :
    applyPartsToRecord
      [joinWithChar '-' r.phones,
       match r.birthday with
       | some d => formatDMY d
       | none => []] (Record.make n) = r := by
  have h := applyParts_lineOf n r hgood hph hbd hname
  rw [lineParts_lineOf n r hgood hph] at h
  exact h

theorem writeLines_no_cr : ∀ (book : Book),
    (∀ p ∈ book, p.2.name = some p.1) →
    (∀ p ∈ book, goodName p.1) →
    (∀ p ∈ book, ∀ q ∈ p.2.phones, goodPhone q) →
    '\r' ∉ (writeLines (book.map Prod.snd)).1 := by
  intro book
  induction book with
  | nil => intro _ _ _ h; exact absurd h (by simp [writeLines])
  | cons hd rest ih =>
    intro hco hgn hgp hmem
    obtain ⟨k, r⟩ := hd
    have hname : r.name = some k := hco (k, r) (by simp)
    rw [show ((k, r) :: rest).map Prod.snd = r :: rest.map Prod.snd from rfl] at hmem
    rw [show writeLines (r :: rest.map Prod.snd) =
        (lineOf k r ++ '\n' :: (writeLines (rest.map Prod.snd)).1,
         (writeLines (rest.map Prod.snd)).2) from by
      conv_lhs => rw [writeLines.eq_def]
      dsimp only
      rw [hname]] at hmem
    dsimp only at hmem
    have hln := lineOf_no_nl_cr k r (hgn (k, r) (by simp)).2.2 (hgp (k, r) (by simp))
    rcases List.mem_append.mp hmem with hl | hr
    · exact hln.2 hl
    · rcases List.mem_cons.mp hr with he | hr2
      · exact absurd he (by decide)
      · exact ih (fun p hp => hco p (List.mem_cons_of_mem _ hp))
          (fun p hp => hgn p (List.mem_cons_of_mem _ hp))
          (fun p hp => hgp p (List.mem_cons_of_mem _ hp)) hr2

theorem writeLines_ok : ∀ (book : Book),
    (∀ p ∈ book, p.2.name = some p.1) → (writeLines (book.map Prod.snd)).2 = true := by
  intro book
  induction book with
  | nil => intro _; rfl
  | cons hd rest ih =>
    intro hco
    obtain ⟨k, r⟩ := hd
    have hname : r.name = some k := hco (k, r) (by simp)
    rw [show ((k, r) :: rest).map Prod.snd = r :: rest.map Prod.snd from rfl]
    rw [show writeLines (r :: rest.map Prod.snd) =
        (lineOf k r ++ '\n' :: (writeLines (rest.map Prod.snd)).1,
         (writeLines (rest.map Prod.snd)).2) from by
      conv_lhs => rw [writeLines.eq_def]
      dsimp only
      rw [hname]]
    exact ih (fun p hp => hco p (List.mem_cons_of_mem _ hp))

theorem round_trip_aux : ∀ (book : Book) (acc : Book),
    (∀ p ∈ book, p.2.name = some p.1) →
    (∀ p ∈ book, goodName p.1) →
    (∀ p ∈ book, ∀ q ∈ p.2.phones, goodPhone q) →
    (∀ p ∈ book, ∀ d, p.2.birthday = some d → goodBirthdate d) →
    (book.map Prod.fst).Nodup →
    (∀ p ∈ book, p.1 ∉ acc.map Prod.fst) →
    (pyFileLines (writeLines (book.map Prod.snd)).1).foldl processLine acc =
      acc ++ book := by
  intro book
  induction book with
  | nil =>
    intro acc _ _ _ _ _ _
    simp [writeLines, pyFileLines, normNewlines, splitOnChar]
  | cons hd rest ih =>
    intro acc hco hgn hgp hgb hnd hfresh
    obtain ⟨k, r⟩ := hd
    have hname : r.name = some k := hco (k, r) (by simp)
    have hgoodk : goodName k := hgn (k, r) (by simp)
    have hphk : ∀ q ∈ r.phones, goodPhone q := hgp (k, r) (by simp)
    rw [show ((k, r) :: rest).map Prod.snd = r :: rest.map Prod.snd from rfl]
    rw [show writeLines (r :: rest.map Prod.snd) =
        (lineOf k r ++ '\n' :: (writeLines (rest.map Prod.snd)).1,
         (writeLines (rest.map Prod.snd)).2) from by
      conv_lhs => rw [writeLines.eq_def]
      dsimp only
      rw [hname]]
    dsimp only
    have hln := lineOf_no_nl_cr k r hgoodk.2.2 hphk
    have hcr : '\r' ∉ (writeLines (rest.map Prod.snd)).1 :=
      writeLines_no_cr rest (fun p hp => hco p (List.mem_cons_of_mem _ hp))
        (fun p hp => hgn p (List.mem_cons_of_mem _ hp))
        (fun p hp => hgp p (List.mem_cons_of_mem _ hp))
    rw [pyFileLines_append _ _ hln.1 hln.2 hcr]
    rw [List.foldl_cons]
    have hpl : processLine acc (lineOf k r) = acc ++ [(k, r)] := by
      unfold processLine
      rw [lineParts_lineOf k r hgoodk hphk]
      dsimp only
      rw [dictFind_eq_none_of_not_mem k acc (hfresh (k, r) (by simp))]
      dsimp only
      rw [applyParts_explicit k r hgoodk hphk
        (fun d hd => hgb (k, r) (by simp) d hd) hname]
      exact dictInsert_append_of_not_mem k r acc (hfresh (k, r) (by simp))
    rw [hpl]
    have hk_not_rest : k ∉ rest.map Prod.fst := by
      rw [List.map_cons] at hnd
      exact (List.nodup_cons.mp hnd).1
    rw [ih (acc ++ [(k, r)])
      (fun p hp => hco p (List.mem_cons_of_mem _ hp))
      (fun p hp => hgn p (List.mem_cons_of_mem _ hp))
      (fun p hp => hgp p (List.mem_cons_of_mem _ hp))
      (fun p hp => hgb p (List.mem_cons_of_mem _ hp))
      (by rw [List.map_cons] at hnd; exact (List.nodup_cons.mp hnd).2)
      ?_]
    · rw [List.append_assoc]
      rfl
    · intro p hp hmem
      rw [List.map_append] at hmem
      rcases List.mem_append.mp hmem with hacc | hk
      · exact hfresh p (List.mem_cons_of_mem _ hp) hacc
      · have hpk : p.1 = k := by simpa using hk
        exact hk_not_rest (hpk ▸ List.mem_map.mpr ⟨p, hp, rfl⟩)

/-- C4 (amended): a directory whose records have coherent keys, names that
are nonempty, strip-stable, and free of commas, newlines and carriage
returns, phones of exactly ten digits, and absent-or-real birthdays with
years 1900–2099, is written successfully and read back identically —
names, order-preserving phone lists, and date-only birthdays all round-trip. -/
theorem file_write_read_round_trip (book : Book)
    (hco : ∀ p ∈ book, p.2.name = some p.1)
    (hgn : ∀ p ∈ book, goodName p.1)
    (hgp : ∀ p ∈ book, ∀ q ∈ p.2.phones, goodPhone q)
    (hgb : ∀ p ∈ book, ∀ d, p.2.birthday = some d → goodBirthdate d)
    (hnd : (book.map Prod.fst).Nodup) :
    (file_write book).2 = true ∧ file_read (file_write book).1 = book := by
  constructor
  · exact writeLines_ok book hco
  · unfold file_read file_write
    rw [round_trip_aux book [] hco hgn hgp hgb hnd (by simp)]
    rfl

/-- C4 (amended, witness): a one-record directory (name `Ann`, two phones,
birthday `03.01.1990`) writes and reads back unchanged. -/
theorem file_write_read_round_trip_witness :
    (file_write [(['A', 'n', 'n'],
        ⟨some ['A', 'n', 'n'],
         [['0', '1', '2', '3', '4', '5', '6', '7', '8', '9'],
          ['1', '1', '1', '2', '2', '2', '3', '3', '3', '3']],
         some ⟨1990, 1, 3⟩⟩)]).2 = true ∧
      file_read (file_write [(['A', 'n', 'n'],
        ⟨some ['A', 'n', 'n'],
         [['0', '1', '2', '3', '4', '5', '6', '7', '8', '9'],
          ['1', '1', '1', '2', '2', '2', '3', '3', '3', '3']],
         some ⟨1990, 1, 3⟩⟩)]).1 =
        [(['A', 'n', 'n'],
          ⟨some ['A', 'n', 'n'],
           [['0', '1', '2', '3', '4', '5', '6', '7', '8', '9'],
            ['1', '1', '1', '2', '2', '2', '3', '3', '3', '3']],
           some ⟨1990, 1, 3⟩⟩)] :=
  file_write_read_round_trip _ (by decide) (by decide) (by decide)
    (by
      intro p hp d hd
      have hpx := List.mem_singleton.mp hp
      subst hpx
      cases hd
      decide)
    (by decide)

end ContactBook
